import Mathlib

/-!
Verification of the JWT compression module (`src/emailservice/jwt_compression.py`).

The module decomposes a JWT `header.payload.signature` into four HPACK-friendly
fragments (`static`, `session`, `dynamic`, `signature`), attaches them to a gRPC
metadata list, and reassembles the token on the receiving side, falling back to a
standard `authorization: Bearer <token>` entry.

Modelling notes:
* Python byte strings are `List Nat` (each entry < 256 where produced).
* Python dicts are association lists built by last-write-wins insertion
  (`upsert`), which preserves first-insertion order exactly as CPython does.
* JSON values are restricted to the atomic values `null`, booleans, integers and
  strings; arrays, nested objects and floats are outside the scope of this model.
* `json.loads` on bytes is modelled as strict UTF-8 decoding followed by parsing;
  BOM-prefixed UTF-16/32 input, which CPython's `detect_encoding` would accept,
  is outside the scope of this model.
* `base64.urlsafe_b64decode` is modelled after CPython 3.10+ `binascii.a2b_base64`
  in non-strict mode: characters outside the table are skipped, `=` ends the
  output once at least two data characters of the current quad were seen, and a
  leftover quad position at the end of input is an error.
* Exceptions that escape a function are modelled with `Except`; exceptions
  caught inside a function body surface as `Option.none`, like the source's
  `return None`.
-/

set_option maxHeartbeats 1600000
set_option maxRecDepth 4096

/-! ### Association lists as Python dicts -/

/-- Lookup in an association list (first binding wins; the lists built by
`upsert` never contain a key twice, and CPython dict lookup agrees). -/
def aget {α : Type} (d : List (String × α)) (k : String) : Option α :=
  (d.find? (fun p => p.1 = k)).map (·.2)

/-- CPython `d[k] = v`: overwrite in place if the key exists (keeping its
original position), otherwise append. -/
def upsert {α : Type} (d : List (String × α)) (k : String) (v : α) : List (String × α) :=
  if d.any (fun p => p.1 = k) then
    d.map (fun p => if p.1 = k then (k, v) else p)
  else d ++ [(k, v)]

/-- Insert every binding of `xs` into `d` in order (CPython `d.update(xs)` /
`{**d, **xs}`). -/
def foldUpsert {α : Type} (d : List (String × α)) (xs : List (String × α)) :
    List (String × α) :=
  xs.foldl (fun acc p => upsert acc p.1 p.2) d

/-- The keys of an association list. -/
def dkeys {α : Type} (d : List (String × α)) : List String := d.map (·.1)

/-- No key occurs twice. -/
def nodupKeys {α : Type} (d : List (String × α)) : Prop := (dkeys d).Nodup

/-! ### UTF-8 codec (CPython strict `str.encode('utf-8')` / `bytes.decode('utf-8')`) -/

/-- UTF-8 encoding of a single unicode scalar value. -/
def utf8EncodeChar (c : Char) : List Nat :=
  let n := c.toNat
  if n < 0x80 then [n]
  else if n < 0x800 then [0xC0 + n / 64, 0x80 + n % 64]
  else if n < 0x10000 then [0xE0 + n / 4096, 0x80 + n / 64 % 64, 0x80 + n % 64]
  else [0xF0 + n / 0x40000, 0x80 + n / 4096 % 64, 0x80 + n / 64 % 64, 0x80 + n % 64]

/-- UTF-8 encoding of a character sequence. -/
def utf8Encode (cs : List Char) : List Nat := cs.flatMap utf8EncodeChar

/-- Is `b` a UTF-8 continuation byte? -/
def contByte (b : Nat) : Prop := 0x80 ≤ b ∧ b ≤ 0xBF

instance (b : Nat) : Decidable (contByte b) := by unfold contByte; infer_instance

/-- Read one UTF-8 encoded scalar value from the front of a byte list, returning
the decoded character and the remaining bytes.  Rejects overlong forms,
surrogates and values above U+10FFFF, exactly as CPython's strict
`bytes.decode('utf-8')` does. -/
def utf8Read1 (bs : List Nat) : Option (Char × List Nat) :=
  match bs with
  | [] => none
  | b :: rest =>
    if b < 0x80 then some (Char.ofNat b, rest)
    else if 0xC2 ≤ b ∧ b ≤ 0xDF then
      match rest with
      | c1 :: rest' =>
        if contByte c1 then some (Char.ofNat ((b - 0xC0) * 64 + (c1 - 0x80)), rest')
        else none
      | [] => none
    else if 0xE0 ≤ b ∧ b ≤ 0xEF then
      match rest with
      | c1 :: c2 :: rest' =>
        if (if b = 0xE0 then 0xA0 else 0x80) ≤ c1 ∧ c1 ≤ (if b = 0xED then 0x9F else 0xBF) ∧
            contByte c2 then
          some (Char.ofNat ((b - 0xE0) * 4096 + (c1 - 0x80) * 64 + (c2 - 0x80)), rest')
        else none
      | _ => none
    else if 0xF0 ≤ b ∧ b ≤ 0xF4 then
      match rest with
      | c1 :: c2 :: c3 :: rest' =>
        if (if b = 0xF0 then 0x90 else 0x80) ≤ c1 ∧ c1 ≤ (if b = 0xF4 then 0x8F else 0xBF) ∧
            contByte c2 ∧ contByte c3 then
          some (Char.ofNat
            ((b - 0xF0) * 0x40000 + (c1 - 0x80) * 4096 + (c2 - 0x80) * 64 + (c3 - 0x80)), rest')
        else none
      | _ => none
    else none

/-- Fueled decoding loop; `utf8Read1` consumes at least one byte per step, so
fuel `bs.length` always suffices. -/
def utf8DecodeLoop : Nat → List Nat → Option (List Char)
  | _, [] => some []
  | 0, _ :: _ => none
  | fuel + 1, bs =>
    (utf8Read1 bs).bind (fun p => (utf8DecodeLoop fuel p.2).map (fun cs => p.1 :: cs))

/-- Strict UTF-8 decoding of a whole byte list. -/
def utf8Decode (bs : List Nat) : Option (List Char) := utf8DecodeLoop bs.length bs

theorem char_val_range (c : Char) :
    c.toNat < 0xD800 ∨ (0xDFFF < c.toNat ∧ c.toNat < 0x110000) := c.valid

theorem utf8Read1_encodeChar (c : Char) (bs : List Nat) :
    utf8Read1 (utf8EncodeChar c ++ bs) = some (c, bs) := by
  have hval := char_val_range c
  unfold utf8EncodeChar utf8Read1
  by_cases h1 : c.toNat < 0x80
  · simp only [if_pos h1, List.cons_append, List.nil_append]
    rw [Char.ofNat_toNat]
  · by_cases h2 : c.toNat < 0x800
    · simp only [if_neg h1, if_pos h2, List.cons_append, List.nil_append]
      rw [if_neg (by omega), if_pos (by omega), if_pos (by unfold contByte; omega)]
      have heq : (0xC0 + c.toNat / 64 - 0xC0) * 64 + (0x80 + c.toNat % 64 - 0x80) = c.toNat := by
        omega
      rw [heq, Char.ofNat_toNat]
    · by_cases h3 : c.toNat < 0x10000
      · simp only [if_neg h1, if_neg h2, if_pos h3, List.cons_append, List.nil_append]
        rw [if_neg (by omega), if_neg (by omega), if_pos (by omega)]
        rw [if_pos ?_]
        · have heq : (0xE0 + c.toNat / 4096 - 0xE0) * 4096 +
              (0x80 + c.toNat / 64 % 64 - 0x80) * 64 +
              (0x80 + c.toNat % 64 - 0x80) = c.toNat := by omega
          rw [heq, Char.ofNat_toNat]
        · refine ⟨?_, ?_, by unfold contByte; omega⟩
          · split
            · next h => omega
            · omega
          · split
            · next h => omega
            · omega
      · simp only [if_neg h1, if_neg h2, if_neg h3, List.cons_append, List.nil_append]
        rw [if_neg (by omega), if_neg (by omega), if_neg (by omega), if_pos (by omega)]
        rw [if_pos ?_]
        · have heq : (0xF0 + c.toNat / 0x40000 - 0xF0) * 0x40000 +
              (0x80 + c.toNat / 4096 % 64 - 0x80) * 4096 +
              (0x80 + c.toNat / 64 % 64 - 0x80) * 64 + (0x80 + c.toNat % 64 - 0x80) = c.toNat := by
            omega
          rw [heq, Char.ofNat_toNat]
        · refine ⟨?_, ?_, by unfold contByte; omega, by unfold contByte; omega⟩
          · split
            · next h => omega
            · omega
          · split
            · next h => omega
            · omega

theorem utf8EncodeChar_ne_nil (c : Char) : utf8EncodeChar c ≠ [] := by
  unfold utf8EncodeChar
  dsimp only
  split_ifs <;> simp

theorem utf8EncodeChar_length_pos (c : Char) : 0 < (utf8EncodeChar c).length := by
  cases h : utf8EncodeChar c with
  | nil => exact absurd h (utf8EncodeChar_ne_nil c)
  | cons _ _ => simp

theorem length_le_utf8Encode (cs : List Char) : cs.length ≤ (utf8Encode cs).length := by
  induction cs with
  | nil => simp [utf8Encode]
  | cons c cs ih =>
    have := utf8EncodeChar_length_pos c
    simp only [utf8Encode, List.flatMap_cons, List.length_append, List.length_cons]
    simp only [utf8Encode] at ih
    omega

theorem utf8DecodeLoop_encode (cs : List Char) :
    ∀ (fuel : Nat), cs.length ≤ fuel →
      utf8DecodeLoop fuel (utf8Encode cs) = some cs := by
  induction cs with
  | nil => intro fuel _; cases fuel <;> rfl
  | cons c cs ih =>
    intro fuel hf
    simp only [List.length_cons] at hf
    obtain ⟨f, rfl⟩ : ∃ f, fuel = f + 1 := ⟨fuel - 1, by omega⟩
    have hne := utf8EncodeChar_ne_nil c
    show utf8DecodeLoop (f + 1) (utf8EncodeChar c ++ utf8Encode cs) = _
    cases hE : utf8EncodeChar c with
    | nil => exact absurd hE hne
    | cons b tl =>
      rw [List.cons_append, utf8DecodeLoop, ← List.cons_append, ← hE, utf8Read1_encodeChar,
        Option.some_bind, ih f (by omega)]
      · rfl
      · simp

theorem utf8Decode_encode (cs : List Char) : utf8Decode (utf8Encode cs) = some cs := by
  unfold utf8Decode
  exact utf8DecodeLoop_encode cs _ (length_le_utf8Encode cs)

theorem utf8EncodeChar_lt_256 (c : Char) : ∀ b ∈ utf8EncodeChar c, b < 256 := by
  have hval := char_val_range c
  unfold utf8EncodeChar
  by_cases h1 : c.toNat < 0x80
  · simp only [if_pos h1]
    intro b hb
    simp at hb
    omega
  · by_cases h2 : c.toNat < 0x800
    · simp only [if_neg h1, if_pos h2]
      intro b hb
      simp at hb
      rcases hb with h | h <;> omega
    · by_cases h3 : c.toNat < 0x10000
      · simp only [if_neg h1, if_neg h2, if_pos h3]
        intro b hb
        simp at hb
        rcases hb with h | h | h <;> omega
      · simp only [if_neg h1, if_neg h2, if_neg h3]
        intro b hb
        simp at hb
        rcases hb with h | h | h | h <;> omega

theorem utf8Encode_lt_256 (cs : List Char) : ∀ b ∈ utf8Encode cs, b < 256 := by
  intro b hb
  unfold utf8Encode at hb
  rw [List.mem_flatMap] at hb
  obtain ⟨c, _, hbc⟩ := hb
  exact utf8EncodeChar_lt_256 c b hbc

/-! ### base64url codec

`base64url_encode` models `base64.urlsafe_b64encode(data).decode().rstrip('=')`;
`base64url_decode` models the source's pad-then-`urlsafe_b64decode` helper, with
`a2bLoop` following CPython's `binascii.a2b_base64` in non-strict mode.
`refB64Decode` is an independent reference base64url decoder used to compare. -/

/-- The base64url alphabet, by 6-bit value. -/
def b64char (n : Nat) : Char :=
  if n < 26 then Char.ofNat (65 + n)
  else if n < 52 then Char.ofNat (97 + (n - 26))
  else if n < 62 then Char.ofNat (48 + (n - 52))
  else if n = 62 then '-' else '_'

/-- Value of a character in the strict base64url alphabet (`A-Z a-z 0-9 - _`). -/
def strictB64Val (c : Char) : Option Nat :=
  let n := c.toNat
  if 65 ≤ n ∧ n ≤ 90 then some (n - 65)
  else if 97 ≤ n ∧ n ≤ 122 then some (n - 97 + 26)
  else if 48 ≤ n ∧ n ≤ 57 then some (n - 48 + 52)
  else if n = 45 then some 62
  else if n = 95 then some 63
  else none

/-- The table `urlsafe_b64decode` effectively uses: it translates `-`/`_` to
`+`/`/` and then decodes with the standard table, so `+` and `/` remain valid
data characters alongside the url-safe pair. -/
def srcB64Val (c : Char) : Option Nat :=
  if c.toNat = 43 then some 62
  else if c.toNat = 47 then some 63
  else strictB64Val c

/-- base64 encoding of a byte list, already stripped of `=` padding, exactly as
`urlsafe_b64encode(...).rstrip('=')` leaves it. -/
def b64encBytes : List Nat → List Char
  | b1 :: b2 :: b3 :: rest =>
    b64char (b1 / 4) :: b64char (b1 % 4 * 16 + b2 / 16) :: b64char (b2 % 16 * 4 + b3 / 64) ::
      b64char (b3 % 64) :: b64encBytes rest
  | [b1, b2] => [b64char (b1 / 4), b64char (b1 % 4 * 16 + b2 / 16), b64char (b2 % 16 * 4)]
  | [b1] => [b64char (b1 / 4), b64char (b1 % 4 * 16)]
  | [] => []

/-- CPython 3.10+ `binascii.a2b_base64` in non-strict mode: data characters move
a quad position `0→1→2→3→0` emitting a byte on each of the last three moves,
characters outside the table are skipped, `=` with quad position ≥ 2 counts
pad characters and finishes the output once the quad is full, and input
exhausted at a nonzero quad position is an error. -/
def a2bLoop : List Char → Nat → Nat → Nat → Option (List Nat)
  | [], quadPos, _, _ => if quadPos = 0 then some [] else none
  | ch :: rest, quadPos, leftchar, pads =>
    if ch = '=' then
      if 2 ≤ quadPos then
        if 4 ≤ quadPos + (pads + 1) then some []
        else a2bLoop rest quadPos leftchar (pads + 1)
      else a2bLoop rest quadPos leftchar pads
    else
      match srcB64Val ch with
      | none => a2bLoop rest quadPos leftchar pads
      | some d =>
        if quadPos = 0 then a2bLoop rest 1 d 0
        else if quadPos = 1 then
          (a2bLoop rest 2 (d % 16) 0).map (fun bs => (leftchar * 4 + d / 16) :: bs)
        else if quadPos = 2 then
          (a2bLoop rest 3 (d % 4) 0).map (fun bs => (leftchar * 16 + d / 4) :: bs)
        else (a2bLoop rest 0 0 0).map (fun bs => (leftchar * 64 + d) :: bs)

/-- The source's padding normalization: append `'=' * (4 - len % 4)` when
`len % 4` is nonzero. -/
def b64PadInput (cs : List Char) : List Char :=
  if cs.length % 4 = 0 then cs else cs ++ List.replicate (4 - cs.length % 4) '='

/-- `base64url_decode` from the source, over a character list. -/
def base64url_decodeL (cs : List Char) : Option (List Nat) := a2bLoop (b64PadInput cs) 0 0 0

/-- `base64url_decode` from the source. -/
def base64url_decode (s : String) : Option (List Nat) := base64url_decodeL s.data

/-- `base64url_encode` from the source, over the character list of the input
string: UTF-8 encode, base64-encode, strip padding. -/
def base64url_encodeL (cs : List Char) : List Char := b64encBytes (utf8Encode cs)

/-- `base64url_encode` from the source. -/
def base64url_encode (s : String) : String := String.mk (base64url_encodeL s.data)

/-- Reference base64url decoder: strict alphabet, unpadded input, groups of four
characters to three bytes with two- and three-character final groups. -/
def refB64Decode : List Char → Option (List Nat)
  | c1 :: c2 :: c3 :: c4 :: rest =>
    match strictB64Val c1, strictB64Val c2, strictB64Val c3, strictB64Val c4 with
    | some v1, some v2, some v3, some v4 =>
      (refB64Decode rest).map
        (fun bs => (v1 * 4 + v2 / 16) :: (v2 % 16 * 16 + v3 / 4) :: (v3 % 4 * 64 + v4) :: bs)
    | _, _, _, _ => none
  | [c1, c2, c3] =>
    match strictB64Val c1, strictB64Val c2, strictB64Val c3 with
    | some v1, some v2, some v3 => some [v1 * 4 + v2 / 16, v2 % 16 * 16 + v3 / 4]
    | _, _, _ => none
  | [c1, c2] =>
    match strictB64Val c1, strictB64Val c2 with
    | some v1, some v2 => some [v1 * 4 + v2 / 16]
    | _, _ => none
  | [_] => none
  | [] => some []

theorem strict_b64char : ∀ v : Fin 64, strictB64Val (b64char v.val) = some v.val := by decide

theorem b64char_ne_pad : ∀ v : Fin 64, b64char v.val ≠ '=' := by decide

theorem src_of_strict {c : Char} {v : Nat} (h : strictB64Val c = some v) :
    srcB64Val c = some v := by
  unfold srcB64Val
  rw [if_neg ?_, if_neg ?_]
  · exact h
  · intro h47
    unfold strictB64Val at h
    rw [if_neg (by omega), if_neg (by omega), if_neg (by omega), if_neg (by omega),
      if_neg (by omega)] at h
    exact Option.noConfusion h
  · intro h43
    unfold strictB64Val at h
    rw [if_neg (by omega), if_neg (by omega), if_neg (by omega), if_neg (by omega),
      if_neg (by omega)] at h
    exact Option.noConfusion h

theorem strict_ne_pad {c : Char} {v : Nat} (h : strictB64Val c = some v) : c ≠ '=' := by
  intro hc
  subst hc
  exact Option.noConfusion ((by decide : strictB64Val '=' = none) ▸ h)

theorem a2bLoop_nil (q l p : Nat) :
    a2bLoop [] q l p = if q = 0 then some [] else none := rfl

theorem a2bStep0 {c : Char} {v : Nat} (hv : srcB64Val c = some v) (hne : c ≠ '=')
    (rest : List Char) (l p : Nat) : a2bLoop (c :: rest) 0 l p = a2bLoop rest 1 v 0 := by
  rw [a2bLoop, if_neg hne, hv]
  dsimp only
  rw [if_pos rfl]

theorem a2bStep1 {c : Char} {v : Nat} (hv : srcB64Val c = some v) (hne : c ≠ '=')
    (rest : List Char) (l p : Nat) :
    a2bLoop (c :: rest) 1 l p =
      (a2bLoop rest 2 (v % 16) 0).map (fun bs => (l * 4 + v / 16) :: bs) := by
  rw [a2bLoop, if_neg hne, hv]
  dsimp only
  rw [if_neg (by omega), if_pos rfl]

theorem a2bStep2 {c : Char} {v : Nat} (hv : srcB64Val c = some v) (hne : c ≠ '=')
    (rest : List Char) (l p : Nat) :
    a2bLoop (c :: rest) 2 l p =
      (a2bLoop rest 3 (v % 4) 0).map (fun bs => (l * 16 + v / 4) :: bs) := by
  rw [a2bLoop, if_neg hne, hv]
  dsimp only
  rw [if_neg (by omega), if_neg (by omega), if_pos rfl]

theorem a2bStep3 {c : Char} {v : Nat} (hv : srcB64Val c = some v) (hne : c ≠ '=')
    (rest : List Char) (l p : Nat) :
    a2bLoop (c :: rest) 3 l p = (a2bLoop rest 0 0 0).map (fun bs => (l * 64 + v) :: bs) := by
  rw [a2bLoop, if_neg hne, hv]
  dsimp only
  rw [if_neg (by omega), if_neg (by omega), if_neg (by omega)]

theorem a2bPadSkip (rest : List Char) {q : Nat} (l p : Nat) (hq : q < 2) :
    a2bLoop ('=' :: rest) q l p = a2bLoop rest q l p := by
  rw [a2bLoop, if_pos rfl, if_neg (by omega)]

theorem a2bPadCont (rest : List Char) {q p : Nat} (l : Nat) (hq : 2 ≤ q)
    (hlt : q + (p + 1) < 4) : a2bLoop ('=' :: rest) q l p = a2bLoop rest q l (p + 1) := by
  rw [a2bLoop, if_pos rfl, if_pos hq, if_neg (by omega)]

theorem a2bPadDone (rest : List Char) {q p : Nat} (l : Nat) (hq : 2 ≤ q)
    (hge : 4 ≤ q + (p + 1)) : a2bLoop ('=' :: rest) q l p = some [] := by
  rw [a2bLoop, if_pos rfl, if_pos hq, if_pos hge]

/-- Characters with a strict base64url value. -/
def strictChars (cs : List Char) : Prop := ∀ c ∈ cs, (strictB64Val c).isSome

theorem a2b_clean :
    ∀ (cs : List Char), strictChars cs →
      (cs.length % 4 = 0 → a2bLoop cs 0 0 0 = refB64Decode cs) ∧
      (cs.length % 4 = 2 → a2bLoop (cs ++ ['=', '=']) 0 0 0 = refB64Decode cs) ∧
      (cs.length % 4 = 3 → a2bLoop (cs ++ ['=']) 0 0 0 = refB64Decode cs) ∧
      (cs.length % 4 = 1 → a2bLoop (cs ++ ['=', '=', '=']) 0 0 0 = none)
  | [], _ => by
    refine ⟨fun _ => rfl, fun h => by simp at h, fun h => by simp at h, fun h => by simp at h⟩
  | [c1], h => by
    obtain ⟨v1, hv1⟩ := Option.isSome_iff_exists.mp (h c1 (by simp))
    refine ⟨fun hm => by simp at hm, fun hm => by simp at hm, fun hm => by simp at hm, fun _ => ?_⟩
    rw [List.cons_append, List.nil_append,
      a2bStep0 (src_of_strict hv1) (strict_ne_pad hv1),
      a2bPadSkip _ _ _ (by omega), a2bPadSkip _ _ _ (by omega), a2bPadSkip _ _ _ (by omega),
      a2bLoop_nil, if_neg (by omega)]
  | [c1, c2], h => by
    obtain ⟨v1, hv1⟩ := Option.isSome_iff_exists.mp (h c1 (by simp))
    obtain ⟨v2, hv2⟩ := Option.isSome_iff_exists.mp (h c2 (by simp))
    refine ⟨fun hm => by simp at hm, fun _ => ?_, fun hm => by simp at hm, fun hm => by simp at hm⟩
    rw [List.cons_append, List.cons_append, List.nil_append,
      a2bStep0 (src_of_strict hv1) (strict_ne_pad hv1),
      a2bStep1 (src_of_strict hv2) (strict_ne_pad hv2),
      a2bPadCont _ _ (by omega) (by omega), a2bPadDone _ _ (by omega) (by omega)]
    rw [refB64Decode, hv1, hv2]
    rfl
  | [c1, c2, c3], h => by
    obtain ⟨v1, hv1⟩ := Option.isSome_iff_exists.mp (h c1 (by simp))
    obtain ⟨v2, hv2⟩ := Option.isSome_iff_exists.mp (h c2 (by simp))
    obtain ⟨v3, hv3⟩ := Option.isSome_iff_exists.mp (h c3 (by simp))
    refine ⟨fun hm => by simp at hm, fun hm => by simp at hm, fun _ => ?_, fun hm => by simp at hm⟩
    rw [List.cons_append, List.cons_append, List.cons_append, List.nil_append,
      a2bStep0 (src_of_strict hv1) (strict_ne_pad hv1),
      a2bStep1 (src_of_strict hv2) (strict_ne_pad hv2),
      a2bStep2 (src_of_strict hv3) (strict_ne_pad hv3),
      a2bPadDone _ _ (by omega) (by omega)]
    rw [refB64Decode, hv1, hv2, hv3]
    rfl
  | c1 :: c2 :: c3 :: c4 :: rest, h => by
    obtain ⟨v1, hv1⟩ := Option.isSome_iff_exists.mp (h c1 (by simp))
    obtain ⟨v2, hv2⟩ := Option.isSome_iff_exists.mp (h c2 (by simp))
    obtain ⟨v3, hv3⟩ := Option.isSome_iff_exists.mp (h c3 (by simp))
    obtain ⟨v4, hv4⟩ := Option.isSome_iff_exists.mp (h c4 (by simp))
    have hrest : strictChars rest := fun c hc => h c (by simp [hc])
    have ih := a2b_clean rest hrest
    have hlen : ∀ (tail : List Char),
        a2bLoop (c1 :: c2 :: c3 :: c4 :: tail) 0 0 0 =
          (a2bLoop tail 0 0 0).map
            (fun bs => (v1 * 4 + v2 / 16) :: (v2 % 16 * 16 + v3 / 4) :: (v3 % 4 * 64 + v4) :: bs) := by
      intro tail
      rw [a2bStep0 (src_of_strict hv1) (strict_ne_pad hv1),
        a2bStep1 (src_of_strict hv2) (strict_ne_pad hv2),
        a2bStep2 (src_of_strict hv3) (strict_ne_pad hv3),
        a2bStep3 (src_of_strict hv4) (strict_ne_pad hv4)]
      rw [Option.map_map, Option.map_map]
      rfl
    have href : refB64Decode (c1 :: c2 :: c3 :: c4 :: rest) =
        (refB64Decode rest).map
          (fun bs => (v1 * 4 + v2 / 16) :: (v2 % 16 * 16 + v3 / 4) :: (v3 % 4 * 64 + v4) :: bs) := by
      rw [refB64Decode, hv1, hv2, hv3, hv4]
    refine ⟨fun hm => ?_, fun hm => ?_, fun hm => ?_, fun hm => ?_⟩
    · rw [hlen rest, href, (ih.1 (by simp at hm; omega))]
    · rw [show (c1 :: c2 :: c3 :: c4 :: rest) ++ ['=', '='] =
        c1 :: c2 :: c3 :: c4 :: (rest ++ ['=', '=']) by simp,
        hlen _, href, ih.2.1 (by simp at hm; omega)]
    · rw [show (c1 :: c2 :: c3 :: c4 :: rest) ++ ['='] =
        c1 :: c2 :: c3 :: c4 :: (rest ++ ['=']) by simp,
        hlen _, href, ih.2.2.1 (by simp at hm; omega)]
    · rw [show (c1 :: c2 :: c3 :: c4 :: rest) ++ ['=', '=', '='] =
        c1 :: c2 :: c3 :: c4 :: (rest ++ ['=', '=', '=']) by simp,
        hlen _, ih.2.2.2 (by simp at hm; omega)]
      rfl

/-- Bytes all below 256. -/
def byteList (bs : List Nat) : Prop := ∀ b ∈ bs, b < 256

theorem strictChars_b64encBytes :
    ∀ (bs : List Nat), byteList bs → strictChars (b64encBytes bs)
  | [], _ => by intro c hc; simp [b64encBytes] at hc
  | [b1], h => by
    intro c hc
    simp only [b64encBytes, List.mem_cons, List.mem_singleton, List.not_mem_nil, or_false] at hc
    have h1 : b1 < 256 := h b1 (by simp)
    rcases hc with rfl | rfl
    · exact (strict_b64char ⟨b1 / 4, by omega⟩) ▸ rfl
    · exact (strict_b64char ⟨b1 % 4 * 16, by omega⟩) ▸ rfl
  | [b1, b2], h => by
    intro c hc
    simp only [b64encBytes, List.mem_cons, List.mem_singleton, List.not_mem_nil, or_false] at hc
    have h1 : b1 < 256 := h b1 (by simp)
    have h2 : b2 < 256 := h b2 (by simp)
    rcases hc with rfl | rfl | rfl
    · exact (strict_b64char ⟨b1 / 4, by omega⟩) ▸ rfl
    · exact (strict_b64char ⟨b1 % 4 * 16 + b2 / 16, by omega⟩) ▸ rfl
    · exact (strict_b64char ⟨b2 % 16 * 4, by omega⟩) ▸ rfl
  | b1 :: b2 :: b3 :: rest, h => by
    intro c hc
    have h1 : b1 < 256 := h b1 (by simp)
    have h2 : b2 < 256 := h b2 (by simp)
    have h3 : b3 < 256 := h b3 (by simp)
    have hrest : byteList rest := fun b hb => h b (by simp [hb])
    rw [b64encBytes] at hc
    simp only [List.mem_cons] at hc
    rcases hc with rfl | rfl | rfl | rfl | hc
    · exact (strict_b64char ⟨b1 / 4, by omega⟩) ▸ rfl
    · exact (strict_b64char ⟨b1 % 4 * 16 + b2 / 16, by omega⟩) ▸ rfl
    · exact (strict_b64char ⟨b2 % 16 * 4 + b3 / 64, by omega⟩) ▸ rfl
    · exact (strict_b64char ⟨b3 % 64, by omega⟩) ▸ rfl
    · exact strictChars_b64encBytes rest hrest c hc

theorem b64encBytes_length :
    ∀ (bs : List Nat),
      (bs.length % 3 = 0 → (b64encBytes bs).length % 4 = 0) ∧
      (bs.length % 3 = 1 → (b64encBytes bs).length % 4 = 2) ∧
      (bs.length % 3 = 2 → (b64encBytes bs).length % 4 = 3)
  | [] => by refine ⟨fun _ => rfl, fun h => by simp at h, fun h => by simp at h⟩
  | [b1] => by
    refine ⟨fun h => by simp at h, fun _ => rfl, fun h => by simp at h⟩
  | [b1, b2] => by
    refine ⟨fun h => by simp at h, fun h => by simp at h, fun _ => rfl⟩
  | b1 :: b2 :: b3 :: rest => by
    have ih := b64encBytes_length rest
    rw [b64encBytes]
    simp only [List.length_cons]
    refine ⟨fun h => ?_, fun h => ?_, fun h => ?_⟩
    · have := ih.1 (by omega)
      omega
    · have := ih.2.1 (by omega)
      omega
    · have := ih.2.2 (by omega)
      omega

theorem refB64Decode_encBytes :
    ∀ (bs : List Nat), byteList bs → refB64Decode (b64encBytes bs) = some bs
  | [], _ => rfl
  | [b1], h => by
    have h1 : b1 < 256 := h b1 (by simp)
    show refB64Decode [b64char (b1 / 4), b64char (b1 % 4 * 16)] = _
    rw [refB64Decode, strict_b64char ⟨b1 / 4, by omega⟩, strict_b64char ⟨b1 % 4 * 16, by omega⟩]
    dsimp only
    congr 2
    omega
  | [b1, b2], h => by
    have h1 : b1 < 256 := h b1 (by simp)
    have h2 : b2 < 256 := h b2 (by simp)
    show refB64Decode
      [b64char (b1 / 4), b64char (b1 % 4 * 16 + b2 / 16), b64char (b2 % 16 * 4)] = _
    rw [refB64Decode, strict_b64char ⟨b1 / 4, by omega⟩,
      strict_b64char ⟨b1 % 4 * 16 + b2 / 16, by omega⟩, strict_b64char ⟨b2 % 16 * 4, by omega⟩]
    dsimp only
    congr 1
    have e1 : b1 / 4 * 4 + (b1 % 4 * 16 + b2 / 16) / 16 = b1 := by omega
    have e2 : (b1 % 4 * 16 + b2 / 16) % 16 * 16 + b2 % 16 * 4 / 4 = b2 := by omega
    rw [e1, e2]
  | b1 :: b2 :: b3 :: rest, h => by
    have h1 : b1 < 256 := h b1 (by simp)
    have h2 : b2 < 256 := h b2 (by simp)
    have h3 : b3 < 256 := h b3 (by simp)
    have hrest : byteList rest := fun b hb => h b (by simp [hb])
    rw [b64encBytes, refB64Decode, strict_b64char ⟨b1 / 4, by omega⟩,
      strict_b64char ⟨b1 % 4 * 16 + b2 / 16, by omega⟩,
      strict_b64char ⟨b2 % 16 * 4 + b3 / 64, by omega⟩, strict_b64char ⟨b3 % 64, by omega⟩]
    dsimp only
    rw [refB64Decode_encBytes rest hrest, Option.map_some']
    congr 1
    have e1 : b1 / 4 * 4 + (b1 % 4 * 16 + b2 / 16) / 16 = b1 := by omega
    have e2 : (b1 % 4 * 16 + b2 / 16) % 16 * 16 + (b2 % 16 * 4 + b3 / 64) / 4 = b2 := by omega
    have e3 : (b2 % 16 * 4 + b3 / 64) % 4 * 64 + b3 % 64 = b3 := by omega
    rw [e1, e2, e3]

/-- Decoding an encoded byte list through the source's pad-and-decode routine
recovers the bytes. -/
theorem base64url_decode_encBytes (bs : List Nat) (h : byteList bs) :
    base64url_decodeL (b64encBytes bs) = some bs := by
  have hstrict := strictChars_b64encBytes bs h
  have hlen := b64encBytes_length bs
  have hclean := a2b_clean (b64encBytes bs) hstrict
  have href := refB64Decode_encBytes bs h
  unfold base64url_decodeL b64PadInput
  rcases (by omega : bs.length % 3 = 0 ∨ bs.length % 3 = 1 ∨ bs.length % 3 = 2) with hm | hm | hm
  · have h4 := hlen.1 hm
    rw [if_pos h4, hclean.1 h4, href]
  · have h4 := hlen.2.1 hm
    rw [if_neg (by omega)]
    have : 4 - (b64encBytes bs).length % 4 = 2 := by omega
    rw [this, show List.replicate 2 '=' = ['=', '='] from rfl, hclean.2.1 h4, href]
  · have h4 := hlen.2.2 hm
    rw [if_neg (by omega)]
    have : 4 - (b64encBytes bs).length % 4 = 1 := by omega
    rw [this, show List.replicate 1 '=' = ['='] from rfl, hclean.2.2.1 h4, href]

/-! ### JSON values, `json.dumps` and `json.loads`

Values are restricted to JSON atoms (`null`, booleans, integers, strings);
floats, arrays and nested objects are outside the scope of this model, as are
strings containing lone surrogate escapes (which CPython's `str` can hold but
Lean's `Char` cannot).  A top-level JSON document that is not an object makes
the source's subsequent `.get` attribute access raise, which the enclosing
`try` turns into `None`; the model's parser returns `none` for those directly,
which is observationally the same. -/

inductive JsonVal where
  | null
  | bool (b : Bool)
  | num (n : Int)
  | str (s : String)
deriving DecidableEq

/-- A parsed JSON object: a Python dict from field name to value. -/
abbrev Obj := List (String × JsonVal)

/-- Left and right curly brace characters. -/
def lbrace : Char := Char.ofNat 123

def rbrace : Char := Char.ofNat 125

def hexDig (n : Nat) : Char :=
  if n < 10 then Char.ofNat (48 + n) else Char.ofNat (97 + (n - 10))

def hexVal (c : Char) : Option Nat :=
  let n := c.toNat
  if 48 ≤ n ∧ n ≤ 57 then some (n - 48)
  else if 97 ≤ n ∧ n ≤ 102 then some (n - 97 + 10)
  else if 65 ≤ n ∧ n ≤ 70 then some (n - 65 + 10)
  else none

def toHex4 (n : Nat) : List Char :=
  [hexDig (n / 4096 % 16), hexDig (n / 256 % 16), hexDig (n / 16 % 16), hexDig (n % 16)]

/-- `json.dumps` escaping of one character with the default `ensure_ascii=True`:
named escapes for `\" \\ \b \t \n \f \r`, printable ASCII kept verbatim, and
everything else as `\uXXXX` (surrogate pairs above U+FFFF). -/
def escChar (c : Char) : List Char :=
  if c = '"' then ['\\', '"']
  else if c = '\\' then ['\\', '\\']
  else if c.toNat = 8 then ['\\', 'b']
  else if c.toNat = 9 then ['\\', 't']
  else if c.toNat = 10 then ['\\', 'n']
  else if c.toNat = 12 then ['\\', 'f']
  else if c.toNat = 13 then ['\\', 'r']
  else if 0x20 ≤ c.toNat ∧ c.toNat ≤ 0x7E then [c]
  else if c.toNat < 0x10000 then '\\' :: 'u' :: toHex4 c.toNat
  else
    ('\\' :: 'u' :: toHex4 (0xD800 + (c.toNat - 0x10000) / 0x400)) ++
      ('\\' :: 'u' :: toHex4 (0xDC00 + (c.toNat - 0x10000) % 0x400))

/-- A JSON string literal, quotes included. -/
def dumpStrL (s : String) : List Char := '"' :: (s.data.flatMap escChar ++ ['"'])

def digitCh (n : Nat) : Char := Char.ofNat (48 + n)

def natDecAux : Nat → Nat → List Char
  | 0, _ => []
  | fuel + 1, n => if n = 0 then [] else natDecAux fuel (n / 10) ++ [digitCh (n % 10)]

/-- Decimal digits of a natural number, most significant first. -/
def natToDec (n : Nat) : List Char := if n = 0 then ['0'] else natDecAux (n + 1) n

/-- Python `repr` of an int. -/
def intToDec (i : Int) : List Char :=
  if i < 0 then '-' :: natToDec i.natAbs else natToDec i.toNat

def dumpValL : JsonVal → List Char
  | .null => 'n' :: ['u', 'l', 'l']
  | .bool true => 't' :: ['r', 'u', 'e']
  | .bool false => 'f' :: ['a', 'l', 's', 'e']
  | .num i => intToDec i
  | .str s => dumpStrL s

/-- One `"key"<key_sep>value` member of a serialized object. -/
def memberDump (vsep : List Char) (p : String × JsonVal) : List Char :=
  dumpStrL p.1 ++ vsep ++ dumpValL p.2

/-- Python `sep.join(pieces)`. -/
def joinMembers (isep : List Char) : List (List Char) → List Char
  | [] => []
  | [m] => m
  | m :: ms => m ++ isep ++ joinMembers isep ms

/-- `json.dumps` of a flat object with the given item and key separators. -/
def dumpsWithL (isep vsep : List Char) (o : Obj) : List Char :=
  lbrace :: (joinMembers isep (o.map (memberDump vsep)) ++ [rbrace])

/-- `json.dumps(obj)` with default separators `(', ', ': ')`, as `decompose_jwt`
calls it. -/
def dumpsDefaultL (o : Obj) : List Char := dumpsWithL [',', ' '] [':', ' '] o

/-- `json.dumps(obj, separators=(',', ':'))`, as `reassemble_jwt` calls it. -/
def dumpsCompactL (o : Obj) : List Char := dumpsWithL [','] [':'] o

/-- JSON whitespace (`' '`, tab, newline, carriage return). -/
def isWsChar (c : Char) : Prop := c = ' ' ∨ c.toNat = 9 ∨ c.toNat = 10 ∨ c.toNat = 13

instance (c : Char) : Decidable (isWsChar c) := by unfold isWsChar; infer_instance

def skipWs : List Char → List Char
  | [] => []
  | c :: rest => if isWsChar c then skipWs rest else c :: rest

def isDigitC (c : Char) : Prop := 48 ≤ c.toNat ∧ c.toNat ≤ 57

instance (c : Char) : Decidable (isDigitC c) := by unfold isDigitC; infer_instance

def decOfDigits (ds : List Char) : Nat := ds.foldl (fun a c => a * 10 + (c.toNat - 48)) 0

/-- Parse a nonnegative JSON integer: a digit run without leading zero, not
followed by a fraction or exponent (floats are outside the model's scope). -/
def parsePosInt (cs : List Char) : Option (Nat × List Char) :=
  let ds := cs.takeWhile (fun c => decide (isDigitC c))
  let rest := cs.drop ds.length
  if ds = [] then none
  else if 1 < ds.length ∧ ds.headI = '0' then none
  else
    match rest with
    | r :: _ => if r = '.' ∨ r = 'e' ∨ r = 'E' then none else some (decOfDigits ds, rest)
    | [] => some (decOfDigits ds, rest)

/-- One step of CPython `py_scanstring`: either the closing quote or one
content character (raw or escape-decoded). -/
inductive StrTok where
  | done (rest : List Char)
  | chr (c : Char) (rest : List Char)

def combineSurr (hi lo : Nat) : Nat := 0x10000 + (hi - 0xD800) * 0x400 + (lo - 0xDC00)

def readU : List Char → Option (Nat × List Char)
  | h1 :: h2 :: h3 :: h4 :: rest =>
    match hexVal h1, hexVal h2, hexVal h3, hexVal h4 with
    | some d1, some d2, some d3, some d4 => some (((d1 * 16 + d2) * 16 + d3) * 16 + d4, rest)
    | _, _, _, _ => none
  | _ => none

def readStrTok (cs : List Char) : Option StrTok :=
  match cs with
  | [] => none
  | c :: rest =>
    if c = '"' then some (.done rest)
    else if c = '\\' then
      match rest with
      | [] => none
      | e :: rest2 =>
        if e = '"' then some (.chr '"' rest2)
        else if e = '\\' then some (.chr '\\' rest2)
        else if e = '/' then some (.chr '/' rest2)
        else if e = 'b' then some (.chr (Char.ofNat 8) rest2)
        else if e = 'f' then some (.chr (Char.ofNat 12) rest2)
        else if e = 'n' then some (.chr (Char.ofNat 10) rest2)
        else if e = 'r' then some (.chr (Char.ofNat 13) rest2)
        else if e = 't' then some (.chr (Char.ofNat 9) rest2)
        else if e = 'u' then
          match readU rest2 with
          | some (n, rest3) =>
            if 0xD800 ≤ n ∧ n ≤ 0xDBFF then
              match rest3 with
              | e2 :: u2 :: rest3' =>
                if e2 = '\\' ∧ u2 = 'u' then
                  match readU rest3' with
                  | some (m, rest4) =>
                    if 0xDC00 ≤ m ∧ m ≤ 0xDFFF then
                      some (.chr (Char.ofNat (combineSurr n m)) rest4)
                    else none
                  | none => none
                else none
              | _ => none
            else if 0xDC00 ≤ n ∧ n ≤ 0xDFFF then none
            else some (.chr (Char.ofNat n) rest3)
          | none => none
        else none
    else if 0x20 ≤ c.toNat then some (.chr c rest)
    else none

def parseStrLoop : Nat → List Char → Option (List Char × List Char)
  | 0, _ => none
  | fuel + 1, cs =>
    match readStrTok cs with
    | some (.done rest) => some ([], rest)
    | some (.chr c rest) => (parseStrLoop fuel rest).map (fun p => (c :: p.1, p.2))
    | none => none

/-- Parse the body of a JSON string literal after the opening quote, returning
the content characters and the input after the closing quote. -/
def parseStrBody (cs : List Char) : Option (List Char × List Char) :=
  parseStrLoop (cs.length + 1) cs

/-- Parse one JSON value (atoms only; see the section comment). -/
def parseVal (cs : List Char) : Option (JsonVal × List Char) :=
  match cs with
  | [] => none
  | c :: rest =>
    if c = '"' then (parseStrBody rest).map (fun p => (JsonVal.str (String.mk p.1), p.2))
    else if c = 'n' then
      match rest with
      | 'u' :: 'l' :: 'l' :: r => some (.null, r)
      | _ => none
    else if c = 't' then
      match rest with
      | 'r' :: 'u' :: 'e' :: r => some (.bool true, r)
      | _ => none
    else if c = 'f' then
      match rest with
      | 'a' :: 'l' :: 's' :: 'e' :: r => some (.bool false, r)
      | _ => none
    else if c = '-' then (parsePosInt rest).map (fun p => (.num (-(p.1 : Int)), p.2))
    else if isDigitC c then (parsePosInt (c :: rest)).map (fun p => (.num ((p.1 : Nat) : Int), p.2))
    else none

/-- Parse the members of an object after the opening brace (first member
onward, leading whitespace already skipped), accumulating into a Python dict
exactly as CPython's object hook does (duplicate keys: last wins). -/
def parseMembersAux : Nat → List Char → Obj → Option (Obj × List Char)
  | 0, _, _ => none
  | fuel + 1, cs, acc =>
    match cs with
    | c :: rest =>
      if c = '"' then
        match parseStrBody rest with
        | some (key, r1) =>
          match skipWs r1 with
          | ':' :: r2 =>
            match parseVal (skipWs r2) with
            | some (v, r3) =>
              match skipWs r3 with
              | c2 :: r4 =>
                if c2 = ',' then parseMembersAux fuel (skipWs r4) (upsert acc (String.mk key) v)
                else if c2 = rbrace then some (upsert acc (String.mk key) v, r4) else none
              | [] => none
            | none => none
          | _ => none
        | none => none
      else none
    | [] => none

/-- `json.loads` over a character list: one object document, with only
whitespace allowed around it. -/
def loadsChars (cs : List Char) : Option Obj :=
  match skipWs cs with
  | c :: rest =>
    if c = lbrace then
      match skipWs rest with
      | c2 :: rest2 =>
        if c2 = rbrace then
          if skipWs rest2 = [] then some [] else none
        else
          match parseMembersAux (cs.length + 1) (c2 :: rest2) [] with
          | some (o, rest3) => if skipWs rest3 = [] then some o else none
          | none => none
      | [] => none
    else none
  | [] => none

/-- `json.loads` on a byte string (UTF-8). -/
def loadsBytes (bs : List Nat) : Option Obj := (utf8Decode bs).bind loadsChars

/-- Base64url-decode a token segment and JSON-parse it, as the source's
`json.loads(base64url_decode(...))` does. -/
def segJson (cs : List Char) : Option Obj := (base64url_decodeL cs).bind loadsBytes

/-! ### Round trip of the JSON codec -/

theorem char_toNat_ofNat {n : Nat} (h : n.isValidChar) : (Char.ofNat n).toNat = n := by
  unfold Char.ofNat
  rw [dif_pos h]
  rfl

theorem char_toNat_ofNat_lt {n : Nat} (h : n < 0xd800) : (Char.ofNat n).toNat = n :=
  char_toNat_ofNat (Or.inl h)

theorem hexVal_hexDig : ∀ d : Fin 16, hexVal (hexDig d.val) = some d.val := by decide

theorem hexVal_hexDig' {d : Nat} (h : d < 16) : hexVal (hexDig d) = some d := hexVal_hexDig ⟨d, h⟩

theorem char_ne_of_toNat {c d : Char} (h : c.toNat ≠ d.toNat) : c ≠ d := fun he => h (he ▸ rfl)

theorem hex4_roundtrip {m : Nat} (h : m < 0x10000) :
    ((m / 4096 % 16 * 16 + m / 256 % 16) * 16 + m / 16 % 16) * 16 + m % 16 = m := by omega


theorem readU_toHex4 {n : Nat} (h : n < 0x10000) (rest : List Char) :
    readU (toHex4 n ++ rest) = some (n, rest) := by
  unfold toHex4
  simp only [List.cons_append, List.nil_append]
  unfold readU
  dsimp only
  rw [hexVal_hexDig' (by omega), hexVal_hexDig' (by omega),
    hexVal_hexDig' (by omega), hexVal_hexDig' (by omega)]
  dsimp only
  rw [hex4_roundtrip h]

theorem readStrTok_u_bmp {n : Nat} (hd : ¬(0xD800 ≤ n ∧ n ≤ 0xDFFF)) (hn : n < 0x10000)
    (cs : List Char) :
    readStrTok ('\\' :: 'u' :: (toHex4 n ++ cs)) = some (.chr (Char.ofNat n) cs) := by
  unfold readStrTok
  dsimp only
  rw [if_neg (by decide), if_pos rfl]
  rw [if_neg (by decide), if_neg (by decide), if_neg (by decide),
    if_neg (by decide), if_neg (by decide), if_neg (by decide),
    if_neg (by decide), if_neg (by decide), if_pos rfl]
  rw [readU_toHex4 hn]
  dsimp only
  rw [if_neg (by omega), if_neg (by omega)]

theorem readStrTok_u_sur {n : Nat} (hlo : 0x10000 ≤ n) (hhi : n < 0x110000) (cs : List Char) :
    readStrTok ('\\' :: 'u' :: (toHex4 (0xD800 + (n - 0x10000) / 0x400) ++
      ('\\' :: 'u' :: (toHex4 (0xDC00 + (n - 0x10000) % 0x400) ++ cs)))) =
    some (.chr (Char.ofNat n) cs) := by
  unfold readStrTok
  dsimp only
  rw [if_neg (by decide), if_pos rfl]
  rw [if_neg (by decide), if_neg (by decide), if_neg (by decide),
    if_neg (by decide), if_neg (by decide), if_neg (by decide),
    if_neg (by decide), if_neg (by decide), if_pos rfl]
  rw [readU_toHex4 (by omega)]
  dsimp only
  rw [if_pos (by omega)]
  rw [if_pos ⟨rfl, rfl⟩]
  rw [readU_toHex4 (by omega)]
  dsimp only
  rw [if_pos (by omega)]
  have hc : combineSurr (0xD800 + (n - 0x10000) / 0x400)
      (0xDC00 + (n - 0x10000) % 0x400) = n := by
    unfold combineSurr
    omega
  rw [hc]

theorem readStrTok_escChar (c : Char) (cs : List Char) :
    readStrTok (escChar c ++ cs) = some (.chr c cs) := by
  have hval := char_val_range c
  unfold escChar
  by_cases hq : c = '"'
  · subst hq
    rw [if_pos rfl]
    rfl
  · rw [if_neg hq]
    by_cases hb : c = '\\'
    · subst hb
      rw [if_pos rfl]
      rfl
    · rw [if_neg hb]
      by_cases h8 : c.toNat = 8
      · rw [if_pos h8]
        have hcc : Char.ofNat 8 = c := by rw [← h8, Char.ofNat_toNat]
        rw [← hcc]
        rfl
      · rw [if_neg h8]
        by_cases h9 : c.toNat = 9
        · rw [if_pos h9]
          have hcc : Char.ofNat 9 = c := by rw [← h9, Char.ofNat_toNat]
          rw [← hcc]
          rfl
        · rw [if_neg h9]
          by_cases h10 : c.toNat = 10
          · rw [if_pos h10]
            have hcc : Char.ofNat 10 = c := by rw [← h10, Char.ofNat_toNat]
            rw [← hcc]
            rfl
          · rw [if_neg h10]
            by_cases h12 : c.toNat = 12
            · rw [if_pos h12]
              have hcc : Char.ofNat 12 = c := by rw [← h12, Char.ofNat_toNat]
              rw [← hcc]
              rfl
            · rw [if_neg h12]
              by_cases h13 : c.toNat = 13
              · rw [if_pos h13]
                have hcc : Char.ofNat 13 = c := by rw [← h13, Char.ofNat_toNat]
                rw [← hcc]
                rfl
              · rw [if_neg h13]
                by_cases hpr : 0x20 ≤ c.toNat ∧ c.toNat ≤ 0x7E
                · rw [if_pos hpr, List.cons_append, List.nil_append]
                  unfold readStrTok
                  dsimp only
                  rw [if_neg hq, if_neg hb, if_pos hpr.1]
                · rw [if_neg hpr]
                  by_cases hbmp : c.toNat < 0x10000
                  · rw [if_pos hbmp]
                    rw [List.cons_append, List.cons_append]
                    rw [readStrTok_u_bmp (by omega) hbmp, Char.ofNat_toNat]
                  · rw [if_neg hbmp]
                    simp only [List.cons_append, List.append_assoc]
                    rw [readStrTok_u_sur (by omega) (by omega), Char.ofNat_toNat]

theorem escChar_ne_nil (c : Char) : escChar c ≠ [] := by
  unfold escChar
  split_ifs <;> simp

theorem escChar_length_pos (c : Char) : 0 < (escChar c).length := by
  cases h : escChar c with
  | nil => exact absurd h (escChar_ne_nil c)
  | cons _ _ => simp

theorem length_le_escaped (l : List Char) : l.length ≤ (l.flatMap escChar).length := by
  induction l with
  | nil => simp
  | cons c l ih =>
    have := escChar_length_pos c
    simp only [List.flatMap_cons, List.length_append, List.length_cons]
    omega

theorem parseStrLoop_escaped (l : List Char) :
    ∀ (fuel : Nat) (rest : List Char), l.length + 1 ≤ fuel →
      parseStrLoop fuel (l.flatMap escChar ++ '"' :: rest) = some (l, rest) := by
  induction l with
  | nil =>
    intro fuel rest hf
    obtain ⟨f, rfl⟩ : ∃ f, fuel = f + 1 := ⟨fuel - 1, by omega⟩
    simp only [List.flatMap_nil, List.nil_append]
    rw [parseStrLoop]
    rfl
  | cons c l ih =>
    intro fuel rest hf
    obtain ⟨f, rfl⟩ : ∃ f, fuel = f + 1 := ⟨fuel - 1, by omega⟩
    simp only [List.flatMap_cons, List.append_assoc]
    rw [parseStrLoop, readStrTok_escChar]
    dsimp only
    rw [ih f rest (by simp at hf; omega)]
    rfl

/-- Parsing a serialized string body recovers the original characters. -/
theorem parseStrBody_escaped (l : List Char) (rest : List Char) :
    parseStrBody (l.flatMap escChar ++ '"' :: rest) = some (l, rest) := by
  unfold parseStrBody
  apply parseStrLoop_escaped
  have h1 := length_le_escaped l
  simp only [List.length_append, List.length_cons]
  omega

theorem digitCh_toNat {d : Nat} (h : d < 10) : (digitCh d).toNat = 48 + d :=
  char_toNat_ofNat_lt (by omega)

theorem natDecAux_digits :
    ∀ (fuel n : Nat), ∀ c ∈ natDecAux fuel n, ∃ d, d < 10 ∧ c = digitCh d := by
  intro fuel
  induction fuel with
  | zero => intro n c hc; simp [natDecAux] at hc
  | succ fuel ih =>
    intro n c hc
    rw [natDecAux] at hc
    by_cases hn : n = 0
    · rw [if_pos hn] at hc
      simp at hc
    · rw [if_neg hn] at hc
      rcases List.mem_append.mp hc with h | h
      · exact ih (n / 10) c h
      · exact ⟨n % 10, by omega, by simpa using h⟩

theorem natToDec_digits (n : Nat) : ∀ c ∈ natToDec n, ∃ d, d < 10 ∧ c = digitCh d := by
  unfold natToDec
  by_cases hn : n = 0
  · rw [if_pos hn]
    intro c hc
    exact ⟨0, by omega, by simpa using hc⟩
  · rw [if_neg hn]
    exact natDecAux_digits (n + 1) n

theorem natDecAux_ne_nil {fuel n : Nat} (hn : n ≠ 0) : natDecAux (fuel + 1) n ≠ [] := by
  rw [natDecAux, if_neg hn]
  simp

theorem headI_append {l l2 : List Char} (h : l ≠ []) : (l ++ l2).headI = l.headI := by
  cases l with
  | nil => exact absurd rfl h
  | cons a l => rfl

theorem natDecAux_head_ne_zero :
    ∀ (fuel n : Nat), n ≠ 0 → n ≤ fuel → (natDecAux fuel n).headI ≠ '0' := by
  intro fuel
  induction fuel with
  | zero => intro n hn hle; omega
  | succ fuel ih =>
    intro n hn hle
    rw [natDecAux, if_neg hn]
    by_cases hsm : n < 10
    · have h0 : natDecAux fuel (n / 10) = [] := by
        have : n / 10 = 0 := by omega
        rw [this]
        cases fuel <;> simp [natDecAux]
      rw [h0, List.nil_append]
      show digitCh (n % 10) ≠ '0'
      apply char_ne_of_toNat
      rw [digitCh_toNat (by omega)]
      show 48 + n % 10 ≠ 48
      omega
    · have hne : natDecAux fuel (n / 10) ≠ [] := by
        obtain ⟨f, rfl⟩ : ∃ f, fuel = f + 1 := ⟨fuel - 1, by omega⟩
        exact natDecAux_ne_nil (by omega)
      rw [headI_append hne]
      exact ih (n / 10) (by omega) (by omega)

theorem natToDec_ne_nil (n : Nat) : natToDec n ≠ [] := by
  unfold natToDec
  by_cases hn : n = 0
  · rw [if_pos hn]; simp
  · rw [if_neg hn]; exact natDecAux_ne_nil hn

theorem foldl_natDecAux :
    ∀ (fuel n a : Nat), n ≤ fuel →
      List.foldl (fun acc c => acc * 10 + (c.toNat - 48)) a (natDecAux fuel n) =
        a * 10 ^ (natDecAux fuel n).length + n := by
  intro fuel
  induction fuel with
  | zero =>
    intro n a hle
    have : n = 0 := by omega
    subst this
    simp [natDecAux]
  | succ fuel ih =>
    intro n a hle
    rw [natDecAux]
    by_cases hn : n = 0
    · rw [if_pos hn]
      simp [hn]
    · rw [if_neg hn]
      rw [List.foldl_append, ih (n / 10) a (by omega)]
      simp only [List.foldl_cons, List.foldl_nil, List.length_append, List.length_cons,
        List.length_nil]
      rw [digitCh_toNat (by omega)]
      rw [pow_succ, ← mul_assoc]
      generalize a * 10 ^ (natDecAux fuel (n / 10)).length = Y
      omega

theorem decOfDigits_natToDec (n : Nat) : decOfDigits (natToDec n) = n := by
  unfold decOfDigits natToDec
  by_cases hn : n = 0
  · rw [if_pos hn, hn]
    rfl
  · rw [if_neg hn, foldl_natDecAux (n + 1) n 0 (by omega)]
    simp

/-- The characters allowed to immediately follow a serialized integer so that
the parse of the integer is unambiguous. -/
def numBoundary : List Char → Prop
  | [] => True
  | r :: _ => ¬isDigitC r ∧ r ≠ '.' ∧ r ≠ 'e' ∧ r ≠ 'E'

theorem takeWhile_all_append (P : Char → Bool) :
    ∀ (ds rest : List Char), (∀ c ∈ ds, P c = true) →
      (∀ r rs, rest = r :: rs → P r = false) →
      (ds ++ rest).takeWhile P = ds := by
  intro ds
  induction ds with
  | nil =>
    intro rest _ hr
    cases rest with
    | nil => rfl
    | cons r rs =>
      simp only [List.nil_append, List.takeWhile_cons]
      rw [hr r rs rfl]
      rfl
  | cons c ds ih =>
    intro rest hall hr
    simp only [List.cons_append, List.takeWhile_cons]
    rw [hall c (by simp)]
    rw [ih rest (fun x hx => hall x (by simp [hx])) hr]
    rfl

theorem parsePosInt_natToDec (n : Nat) (rest : List Char) (hb : numBoundary rest) :
    parsePosInt (natToDec n ++ rest) = some (n, rest) := by
  have hall : ∀ c ∈ natToDec n, (fun c => decide (isDigitC c)) c = true := by
    intro c hc
    obtain ⟨d, hd, rfl⟩ := natToDec_digits n c hc
    simp only [decide_eq_true_eq]
    unfold isDigitC
    rw [digitCh_toNat hd]
    omega
  have hrest : ∀ r rs, rest = r :: rs → (fun c => decide (isDigitC c)) r = false := by
    intro r rs he
    subst he
    simp only [decide_eq_false_iff_not]
    exact hb.1
  have ht := takeWhile_all_append (fun c => decide (isDigitC c)) (natToDec n) rest hall hrest
  unfold parsePosInt
  rw [ht]
  dsimp only
  rw [List.drop_left]
  rw [if_neg (natToDec_ne_nil n)]
  rw [if_neg ?_]
  · cases rest with
    | nil =>
      dsimp only
      rw [decOfDigits_natToDec]
    | cons r rs =>
      dsimp only
      rw [if_neg ?_, decOfDigits_natToDec]
      simp only [not_or]
      exact ⟨hb.2.1, hb.2.2.1, hb.2.2.2⟩
  · intro hcon
    unfold natToDec at hcon
    by_cases hn : n = 0
    · rw [if_pos hn] at hcon
      simp at hcon
    · rw [if_neg hn] at hcon
      exact natDecAux_head_ne_zero (n + 1) n hn (by omega) hcon.2

theorem parseVal_dump (v : JsonVal) (rest : List Char) (hb : numBoundary rest) :
    parseVal (dumpValL v ++ rest) = some (v, rest) := by
  cases v with
  | null =>
    show parseVal ('n' :: 'u' :: 'l' :: 'l' :: rest) = _
    unfold parseVal
    dsimp only
    rw [if_neg (by decide), if_pos rfl]
    rfl
  | bool b =>
    cases b with
    | true =>
      show parseVal ('t' :: 'r' :: 'u' :: 'e' :: rest) = _
      unfold parseVal
      dsimp only
      rw [if_neg (by decide), if_neg (by decide), if_pos rfl]
      rfl
    | false =>
      show parseVal ('f' :: 'a' :: 'l' :: 's' :: 'e' :: rest) = _
      unfold parseVal
      dsimp only
      rw [if_neg (by decide), if_neg (by decide), if_neg (by decide), if_pos rfl]
      rfl
  | num i =>
    show parseVal (intToDec i ++ rest) = _
    unfold intToDec
    by_cases hneg : i < 0
    · rw [if_pos hneg, List.cons_append]
      unfold parseVal
      dsimp only
      rw [if_neg (by decide), if_neg (by decide), if_neg (by decide), if_neg (by decide),
        if_pos rfl]
      rw [parsePosInt_natToDec i.natAbs rest hb]
      dsimp only [Option.map_some']
      have : -((i.natAbs : Nat) : Int) = i := by omega
      rw [this]
    · rw [if_neg hneg]
      cases hdec : natToDec i.toNat with
      | nil => exact absurd hdec (natToDec_ne_nil _)
      | cons c0 tl =>
        obtain ⟨d, hd, hc0⟩ := natToDec_digits i.toNat c0 (by rw [hdec]; simp)
        have hdig : isDigitC c0 := by
          subst hc0
          unfold isDigitC
          rw [digitCh_toNat hd]
          omega
        have htn : c0.toNat = 48 + d := by rw [hc0, digitCh_toNat hd]
        have e1 : ('"' : Char).toNat = 34 := rfl
        have e2 : ('n' : Char).toNat = 110 := rfl
        have e3 : ('t' : Char).toNat = 116 := rfl
        have e4 : ('f' : Char).toNat = 102 := rfl
        have e5 : ('-' : Char).toNat = 45 := rfl
        rw [List.cons_append]
        unfold parseVal
        dsimp only
        rw [if_neg (char_ne_of_toNat (by rw [htn, e1]; omega)),
          if_neg (char_ne_of_toNat (by rw [htn, e2]; omega)),
          if_neg (char_ne_of_toNat (by rw [htn, e3]; omega)),
          if_neg (char_ne_of_toNat (by rw [htn, e4]; omega)),
          if_neg (char_ne_of_toNat (by rw [htn, e5]; omega)), if_pos hdig]
        rw [← List.cons_append, ← hdec, parsePosInt_natToDec i.toNat rest hb]
        dsimp only [Option.map_some']
        have : ((i.toNat : Nat) : Int) = i := by omega
        rw [this]
  | str s =>
    show parseVal (dumpStrL s ++ rest) = _
    unfold dumpStrL
    rw [List.cons_append, List.append_assoc]
    unfold parseVal
    dsimp only
    rw [if_pos rfl]
    rw [show ['"'] ++ rest = '"' :: rest from rfl]
    rw [parseStrBody_escaped]
    rfl

theorem skipWs_not_ws {c : Char} (h : ¬ isWsChar c) (rest : List Char) :
    skipWs (c :: rest) = c :: rest := by
  rw [skipWs, if_neg h]

theorem skipWs_ws_append (ws : List Char) (rest : List Char) (h : ∀ c ∈ ws, isWsChar c) :
    skipWs (ws ++ rest) = skipWs rest := by
  induction ws with
  | nil => rfl
  | cons c ws ih =>
    rw [List.cons_append, skipWs, if_pos (h c (by simp))]
    exact ih (fun x hx => h x (by simp [hx]))

theorem skipWs_head_not_ws (l tail : List Char) (hne : l ≠ [])
    (hh : ¬ isWsChar l.headI) : skipWs (l ++ tail) = l ++ tail := by
  cases l with
  | nil => exact absurd rfl hne
  | cons c tl =>
    rw [List.cons_append]
    exact skipWs_not_ws hh _

theorem dumpValL_ne_nil (v : JsonVal) : dumpValL v ≠ [] := by
  cases v with
  | null => simp [dumpValL]
  | bool b => cases b <;> simp [dumpValL]
  | num i =>
    show intToDec i ≠ []
    unfold intToDec
    by_cases hneg : i < 0
    · rw [if_pos hneg]; simp
    · rw [if_neg hneg]; exact natToDec_ne_nil _
  | str s =>
    show dumpStrL s ≠ []
    unfold dumpStrL
    simp

theorem isWsChar_iff_toNat (c : Char) :
    isWsChar c ↔ (c.toNat = 32 ∨ c.toNat = 9 ∨ c.toNat = 10 ∨ c.toNat = 13) := by
  unfold isWsChar
  constructor
  · rintro (h | h | h | h)
    · subst h; exact Or.inl rfl
    · exact Or.inr (Or.inl h)
    · exact Or.inr (Or.inr (Or.inl h))
    · exact Or.inr (Or.inr (Or.inr h))
  · rintro (h | h | h | h)
    · left
      rw [← Char.ofNat_toNat c, h]
    · exact Or.inr (Or.inl h)
    · exact Or.inr (Or.inr (Or.inl h))
    · exact Or.inr (Or.inr (Or.inr h))

theorem dumpValL_head_not_ws (v : JsonVal) : ¬ isWsChar (dumpValL v).headI := by
  cases v with
  | null => decide
  | bool b => cases b <;> decide
  | num i =>
    show ¬ isWsChar (intToDec i).headI
    unfold intToDec
    by_cases hneg : i < 0
    · rw [if_pos hneg, List.headI_cons]
      decide
    · rw [if_neg hneg]
      cases hdec : natToDec i.toNat with
      | nil => exact absurd hdec (natToDec_ne_nil _)
      | cons c0 tl =>
        obtain ⟨d, hd, hc0⟩ := natToDec_digits i.toNat c0 (by rw [hdec]; simp)
        have htn : c0.toNat = 48 + d := by rw [hc0, digitCh_toNat hd]
        rw [List.headI_cons, isWsChar_iff_toNat, htn]
        omega
  | str s =>
    show ¬ isWsChar (dumpStrL s).headI
    unfold dumpStrL
    rw [List.headI_cons]
    decide

theorem skipWs_dumpVal (v : JsonVal) (tail : List Char) :
    skipWs (dumpValL v ++ tail) = dumpValL v ++ tail :=
  skipWs_head_not_ws _ _ (dumpValL_ne_nil v) (dumpValL_head_not_ws v)

theorem numBoundary_rbrace (rest : List Char) : numBoundary (rbrace :: rest) := by
  refine ⟨by decide, by decide, by decide, by decide⟩

theorem joinMembers_cons_head (vsep : List Char) (m : String × JsonVal) (ms : List (String × JsonVal)) (isep : List Char) :
    ∃ tl, joinMembers isep ((m :: ms).map (memberDump vsep)) =
      '"' :: tl := by
  cases ms with
  | nil =>
    refine ⟨(m.1.data.flatMap escChar ++ ['"']) ++ vsep ++ dumpValL m.2, ?_⟩
    show memberDump vsep m = _
    unfold memberDump dumpStrL
    simp [List.append_assoc]
  | cons m1 ms =>
    refine ⟨(m.1.data.flatMap escChar ++ ['"']) ++ vsep ++ dumpValL m.2 ++ isep ++
      joinMembers isep ((m1 :: ms).map (memberDump vsep)), ?_⟩
    show memberDump vsep m ++ isep ++ _ = _
    unfold memberDump dumpStrL
    simp [List.append_assoc]

theorem parseMembersAux_member_step (f : Nat) (k : String) (v : JsonVal) (acc : Obj)
    (vsepWs tail : List Char) (hvw : ∀ c ∈ vsepWs, isWsChar c) (hbTail : numBoundary tail) :
    parseMembersAux (f + 1) (memberDump (':' :: vsepWs) (k, v) ++ tail) acc =
      (match skipWs tail with
       | c2 :: r4 =>
         if c2 = ',' then parseMembersAux f (skipWs r4) (upsert acc k v)
         else if c2 = rbrace then some (upsert acc k v, r4) else none
       | [] => none) := by
  have hcs : memberDump (':' :: vsepWs) (k, v) ++ tail =
      '"' :: (k.data.flatMap escChar ++ ('"' :: ((':' :: vsepWs) ++ (dumpValL v ++ tail)))) := by
    unfold memberDump dumpStrL
    simp [List.append_assoc]
  rw [hcs, parseMembersAux]
  rw [if_pos rfl, parseStrBody_escaped]
  dsimp only
  simp only [List.cons_append]
  have h1 : skipWs (':' :: (vsepWs ++ (dumpValL v ++ tail))) =
      ':' :: (vsepWs ++ (dumpValL v ++ tail)) := skipWs_not_ws (by decide) _
  simp only [h1]
  rw [skipWs_ws_append vsepWs _ hvw, skipWs_dumpVal, parseVal_dump v tail hbTail]

theorem parseMembersAux_dump (isepWs vsepWs : List Char)
    (hiw : ∀ c ∈ isepWs, isWsChar c) (hvw : ∀ c ∈ vsepWs, isWsChar c) :
    ∀ (ms : Obj) (m0 : String × JsonVal) (acc : Obj) (fuel : Nat) (rest : List Char),
      ms.length + 1 ≤ fuel →
      parseMembersAux fuel
        (joinMembers (',' :: isepWs) ((m0 :: ms).map (memberDump (':' :: vsepWs))) ++
          rbrace :: rest) acc =
        some (foldUpsert acc (m0 :: ms), rest) := by
  intro ms
  induction ms with
  | nil =>
    intro m0 acc fuel rest hf
    obtain ⟨f, rfl⟩ : ∃ f, fuel = f + 1 := ⟨fuel - 1, by omega⟩
    obtain ⟨k, v⟩ := m0
    show parseMembersAux (f + 1) (memberDump (':' :: vsepWs) (k, v) ++ rbrace :: rest) acc = _
    rw [parseMembersAux_member_step f k v acc vsepWs _ hvw (numBoundary_rbrace rest)]
    rw [skipWs_not_ws (c := rbrace) (by decide)]
    dsimp only
    rw [if_neg (by decide), if_pos rfl]
    rfl
  | cons m1 ms ih =>
    intro m0 acc fuel rest hf
    obtain ⟨f, rfl⟩ : ∃ f, fuel = f + 1 := ⟨fuel - 1, by omega⟩
    obtain ⟨k, v⟩ := m0
    have hjoin : joinMembers (',' :: isepWs)
        (((k, v) :: m1 :: ms).map (memberDump (':' :: vsepWs))) ++ rbrace :: rest =
        memberDump (':' :: vsepWs) (k, v) ++
          ((',' :: isepWs) ++
            (joinMembers (',' :: isepWs) ((m1 :: ms).map (memberDump (':' :: vsepWs))) ++
              rbrace :: rest)) := by
    
      show (memberDump (':' :: vsepWs) (k, v) ++ (',' :: isepWs) ++ _) ++ _ = _
      simp [List.append_assoc]
    rw [hjoin]
    have hbTail : numBoundary ((',' :: isepWs) ++
        (joinMembers (',' :: isepWs) ((m1 :: ms).map (memberDump (':' :: vsepWs))) ++
          rbrace :: rest)) := by
      refine ⟨by decide, by decide, by decide, by decide⟩
    rw [parseMembersAux_member_step f k v acc vsepWs _ hvw hbTail]
    rw [List.cons_append, skipWs_not_ws (c := ',') (by decide)]
    dsimp only
    rw [if_pos rfl]
    rw [skipWs_ws_append isepWs _ hiw]
    obtain ⟨tl, htl⟩ := joinMembers_cons_head (':' :: vsepWs) m1 ms (',' :: isepWs)
    rw [htl, List.cons_append, skipWs_not_ws (c := '"') (by decide), ← List.cons_append, ← htl]
    rw [ih m1 (upsert acc k v) f rest (by simp at hf; omega)]
    rfl

theorem joinMembers_length_ge (isep : List Char) :
    ∀ (pieces : List (List Char)), (∀ p ∈ pieces, p ≠ []) →
      pieces.length ≤ (joinMembers isep pieces).length
  | [], _ => by simp [joinMembers]
  | [m], h => by
    rw [joinMembers]
    have : m ≠ [] := h m (by simp)
    cases m with
    | nil => exact absurd rfl this
    | cons a l => simp
  | m :: m1 :: ms, h => by
    rw [show joinMembers isep (m :: m1 :: ms) = m ++ isep ++ joinMembers isep (m1 :: ms)
      from rfl]
    have ih := joinMembers_length_ge isep (m1 :: ms) (fun p hp => h p (by simp [hp]))
    have : m ≠ [] := h m (by simp)
    cases m with
    | nil => exact absurd rfl this
    | cons a l =>
      simp only [List.length_append, List.length_cons] at ih ⊢
      omega

theorem memberDump_ne_nil (vsep : List Char) (m : String × JsonVal) :
    memberDump vsep m ≠ [] := by
  unfold memberDump dumpStrL
  simp

theorem loadsChars_dumpsWith (o : Obj) (isepWs vsepWs : List Char)
    (hiw : ∀ c ∈ isepWs, isWsChar c) (hvw : ∀ c ∈ vsepWs, isWsChar c) :
    loadsChars (dumpsWithL (',' :: isepWs) (':' :: vsepWs) o) = some (foldUpsert [] o) := by
  unfold dumpsWithL loadsChars
  rw [skipWs_not_ws (c := lbrace) (by decide)]
  dsimp only
  rw [if_pos rfl]
  cases o with
  | nil =>
    show (match skipWs [rbrace] with
      | c2 :: rest2 => _
      | [] => none) = _
    rw [skipWs_not_ws (c := rbrace) (by decide)]
    rfl
  | cons m0 ms =>
    obtain ⟨tl, htl⟩ := joinMembers_cons_head (':' :: vsepWs) m0 ms (',' :: isepWs)
    rw [htl]
    rw [List.cons_append, skipWs_not_ws (c := '"') (by decide)]
    dsimp only
    rw [if_neg (by decide)]
    rw [← List.cons_append, ← htl]
    have hlen : ms.length + 1 ≤
        (lbrace :: (joinMembers (',' :: isepWs) ((m0 :: ms).map (memberDump (':' :: vsepWs))) ++
          [rbrace])).length + 1 := by
      have hj := joinMembers_length_ge (',' :: isepWs)
        ((m0 :: ms).map (memberDump (':' :: vsepWs)))
        (by
          intro p hp
          rw [List.mem_map] at hp
          obtain ⟨m, _, rfl⟩ := hp
          exact memberDump_ne_nil _ m)
      simp only [List.length_map, List.length_cons, List.length_append] at hj ⊢
      omega
    rw [show joinMembers (',' :: isepWs) ((m0 :: ms).map (memberDump (':' :: vsepWs))) ++
        [rbrace] = joinMembers (',' :: isepWs) ((m0 :: ms).map (memberDump (':' :: vsepWs))) ++
        rbrace :: [] from rfl]
    rw [parseMembersAux_dump isepWs vsepWs hiw hvw ms m0 [] _ [] hlen]
    rfl

theorem upsert_not_mem {α : Type} (d : List (String × α)) (k : String) (v : α)
    (h : k ∉ dkeys d) : upsert d k v = d ++ [(k, v)] := by
  unfold upsert
  rw [if_neg ?_]
  intro hany
  rw [List.any_eq_true] at hany
  obtain ⟨p, hp, hpk⟩ := hany
  simp only [decide_eq_true_eq] at hpk
  exact h (by rw [← hpk]; exact List.mem_map.mpr ⟨p, hp, rfl⟩)

theorem foldUpsert_disjoint {α : Type} :
    ∀ (o acc : List (String × α)), nodupKeys o → (∀ k ∈ dkeys o, k ∉ dkeys acc) →
      foldUpsert acc o = acc ++ o
  | [], acc, _, _ => by simp [foldUpsert]
  | (k, v) :: o, acc, hnd, hdisj => by
    show foldUpsert (upsert acc k v) o = _
    rw [upsert_not_mem acc k v (hdisj k (by simp [dkeys]))]
    rw [foldUpsert_disjoint o (acc ++ [(k, v)]) ?_ ?_]
    · simp
    · unfold nodupKeys dkeys at hnd ⊢
      simp at hnd
      exact hnd.2
    · intro k2 hk2
      unfold dkeys at hk2 ⊢
      simp only [List.map_append, List.mem_append]
      push_neg
      constructor
      · exact fun hc => hdisj k2 (by unfold dkeys; simp [hk2]) hc
      · unfold nodupKeys dkeys at hnd
        simp only [List.map_cons, List.nodup_cons] at hnd
        intro hc
        simp at hc
        subst hc
        exact hnd.1 hk2
  
theorem foldUpsert_nil_nodup (o : Obj) (h : nodupKeys o) : foldUpsert [] o = o := by
  rw [foldUpsert_disjoint o [] h (by intro k _; simp [dkeys])]
  simp

/-- Decoding and JSON-parsing a fragment produced by serializing an object with
either separator style recovers the object (as a Python dict). -/
theorem segJson_encode_dumps (o : Obj) (hn : nodupKeys o) (isepWs vsepWs : List Char)
    (hiw : ∀ c ∈ isepWs, isWsChar c) (hvw : ∀ c ∈ vsepWs, isWsChar c) :
    segJson (base64url_encodeL (dumpsWithL (',' :: isepWs) (':' :: vsepWs) o)) = some o := by
  unfold segJson base64url_encodeL
  rw [base64url_decode_encBytes _ (utf8Encode_lt_256 _)]
  rw [Option.some_bind]
  unfold loadsBytes
  rw [show utf8Encode (dumpsWithL (',' :: isepWs) (':' :: vsepWs) o) =
    utf8Encode (dumpsWithL (',' :: isepWs) (':' :: vsepWs) o) from rfl]
  rw [utf8Decode_encode]
  rw [Option.some_bind]
  rw [loadsChars_dumpsWith o isepWs vsepWs hiw hvw]
  rw [foldUpsert_nil_nodup o hn]

theorem b64encBytes_ne_nil : ∀ (bs : List Nat), bs ≠ [] → b64encBytes bs ≠ []
  | [], h => absurd rfl h
  | [b1], _ => by rw [b64encBytes]; simp
  | [b1, b2], _ => by rw [b64encBytes]; simp
  | b1 :: b2 :: b3 :: rest, _ => by rw [b64encBytes]; simp

theorem dumpsWithL_ne_nil (isep vsep : List Char) (o : Obj) :
    dumpsWithL isep vsep o ≠ [] := by
  unfold dumpsWithL
  simp

theorem utf8Encode_ne_nil {cs : List Char} (h : cs ≠ []) : utf8Encode cs ≠ [] := by
  cases cs with
  | nil => exact absurd rfl h
  | cons c l =>
    unfold utf8Encode
    rw [List.flatMap_cons]
    intro hcon
    rcases List.append_eq_nil.mp hcon with ⟨h1, _⟩
    exact utf8EncodeChar_ne_nil c h1

theorem base64url_encodeL_dumps_ne_nil (isep vsep : List Char) (o : Obj) :
    base64url_encodeL (dumpsWithL isep vsep o) ≠ [] := by
  unfold base64url_encodeL
  exact b64encBytes_ne_nil _ (utf8Encode_ne_nil (dumpsWithL_ne_nil isep vsep o))

/-! ### The JWT compression module -/

/-- Python `jwt.split('.')` over characters: split on every dot, keeping empty
segments. -/
def splitDots : List Char → List (List Char)
  | [] => [[]]
  | c :: rest =>
    if c = '.' then [] :: splitDots rest
    else
      match splitDots rest with
      | g :: gs => (c :: g) :: gs
      | [] => [[c]]

/-- Python `d.get(k)` where a missing field yields `None`, i.e. JSON `null`
once serialized. -/
def jget (o : Obj) (k : String) : JsonVal := (aget o k).getD .null

/-- The static bucket built by `decompose_jwt`: `alg`/`typ` from the header,
`iss`/`aud`/`name` from the payload. -/
def static_claims (header payload : Obj) : Obj :=
  [("alg", jget header "alg"), ("typ", jget header "typ"), ("iss", jget payload "iss"),
    ("aud", jget payload "aud"), ("name", jget payload "name")]

/-- The session bucket built by `decompose_jwt`. -/
def session_claims (payload : Obj) : Obj :=
  [("sub", jget payload "sub"), ("session_id", jget payload "session_id"),
    ("market_id", jget payload "market_id"), ("currency", jget payload "currency"),
    ("cart_id", jget payload "cart_id")]

/-- The dynamic bucket built by `decompose_jwt`. -/
def dynamic_claims (payload : Obj) : Obj :=
  [("exp", jget payload "exp"), ("iat", jget payload "iat"), ("jti", jget payload "jti")]

/-- The four fragments produced by decomposition. -/
structure Frags where
  static : String
  session : String
  dynamic : String
  signature : String
deriving DecidableEq

/-- `base64url_encode(json.dumps(o))` — default separators, as in
`decompose_jwt`. -/
def b64JsonDefault (o : Obj) : String := String.mk (base64url_encodeL (dumpsDefaultL o))

/-- `base64url_encode(json.dumps(o, separators=(',', ':')))` — as in
`reassemble_jwt`. -/
def b64JsonCompact (o : Obj) : String := String.mk (base64url_encodeL (dumpsCompactL o))

/-- `decompose_jwt` from the source: reject empty or non-three-segment tokens,
decode and parse header and payload (any failure, including one that would
surface as an exception in Python, yields `None` through the enclosing
`try`/`except`), classify into the three buckets, and encode each bucket with
default-separator JSON; the signature passes through verbatim. -/
def decompose_jwt (jwt : String) : Option Frags :=
  if jwt = "" then none
  else
    match splitDots jwt.data with
    | [header_b64, payload_b64, signature_b64] =>
      match segJson header_b64, segJson payload_b64 with
      | some header, some payload =>
        some { static := b64JsonDefault (static_claims header payload),
               session := b64JsonDefault (session_claims payload),
               dynamic := b64JsonDefault (dynamic_claims payload),
               signature := String.mk signature_b64 }
      | _, _ => none
    | _ => none

/-- A gRPC metadata value: text, or raw bytes that must decode as UTF-8. -/
inductive MetaVal where
  | str (s : String)
  | bytes (bs : List Nat)
deriving DecidableEq

/-- The `for key, value in metadata` conversion loop at the top of
`reassemble_jwt`.  It runs **outside** the `try` block, so a bytes value that
is not valid UTF-8 raises `UnicodeDecodeError` out of the function (`none`
here). -/
def convertMeta : List (String × MetaVal) → Option (List (String × String))
  | [] => some []
  | (k, .str s) :: rest => (convertMeta rest).map (fun l => (k, s) :: l)
  | (k, .bytes bs) :: rest =>
    match utf8Decode bs with
    | some cs => (convertMeta rest).map (fun l => (k, String.mk cs) :: l)
    | none => none

/-- `metadata_dict[key] = value` over the converted pairs: last occurrence of a
key wins. -/
def toDictS (pairs : List (String × String)) : List (String × String) :=
  pairs.foldl (fun d p => upsert d p.1 p.2) []

/-- Python truthiness of an optional string: present and nonempty. -/
def truthy : Option String → Bool
  | some s => s != ""
  | none => false

/-- The fallback tail of `reassemble_jwt`: an `authorization` entry starting
with `"Bearer "` yields the token after the prefix, anything else `None`. -/
def bearerFallback (md : List (String × String)) : Option String :=
  match aget md "authorization" with
  | some auth =>
    if auth != "" ∧ auth.data.take 7 = ("Bearer ").data then
      some (String.mk (auth.data.drop 7))
    else none
  | none => none

/-- `{**static_claims, **session_claims, **dynamic_claims}` followed by
`payload.pop('alg', None)` and `payload.pop('typ', None)`. -/
def pyMergePayload (sc ss dc : Obj) : Obj :=
  ((foldUpsert (foldUpsert (foldUpsert [] sc) ss) dc).filter
    (fun p => p.1 != "alg")).filter (fun p => p.1 != "typ")

/-- The compressed branch of `reassemble_jwt`, after all four fragments were
found truthy: decode and parse the three claim fragments (any failure
re-raises into the outer `except`, which returns `None`), rebuild header and
payload, and join with the pass-through signature. -/
def compressedResult (st se dy sg : String) : Option String :=
  match segJson st.data, segJson se.data, segJson dy.data with
  | some sc, some ss, some dc =>
    some (b64JsonCompact [("alg", jget sc "alg"), ("typ", jget sc "typ")] ++ "." ++
      b64JsonCompact (pyMergePayload sc ss dc) ++ "." ++ sg)
  | _, _, _ => none

/-- `reassemble_jwt` from the source.  The `Except` layer carries the
`UnicodeDecodeError` that the metadata conversion loop can raise across the
function boundary; every other failure is a `None` result. -/
def reassemble_jwt (metadata : List (String × MetaVal)) : Except String (Option String) :=
  match convertMeta metadata with
  | none => .error "UnicodeDecodeError"
  | some pairs =>
    let md := toDictS pairs
    let st := aget md "x-jwt-static"
    let se := aget md "x-jwt-session"
    let dy := aget md "x-jwt-dynamic"
    let sg := aget md "x-jwt-sig"
    if truthy st ∧ truthy se ∧ truthy dy ∧ truthy sg then
      .ok (compressedResult (st.getD "") (se.getD "") (dy.getD "") (sg.getD ""))
    else .ok (bearerFallback md)

/-- Python `str.lower()` restricted to ASCII (the recognized flag values are
ASCII; non-ASCII case folding is outside the scope of this model). -/
def pyLower (s : String) : String :=
  String.mk (s.data.map (fun c =>
    if 65 ≤ c.toNat ∧ c.toNat ≤ 90 then Char.ofNat (c.toNat + 32) else c))

/-- `is_jwt_compression_enabled`: the `ENABLE_JWT_COMPRESSION` environment
value (absent ⇒ `'false'`), lowercased, compared with `'true'`. -/
def is_jwt_compression_enabled (env : Option String) : Bool :=
  pyLower (env.getD "false") == "true"

/-- `add_compressed_jwt` from the source.  Python mutates the metadata list by
appending; the model returns the extended list. -/
def add_compressed_jwt (env : Option String) (metadata : List (String × MetaVal))
    (jwt : String) : List (String × MetaVal) :=
  if jwt = "" ∨ is_jwt_compression_enabled env = false then
    metadata ++ [("authorization", .str ("Bearer " ++ jwt))]
  else
    match decompose_jwt jwt with
    | none => metadata ++ [("authorization", .str ("Bearer " ++ jwt))]
    | some c =>
      metadata ++ [("x-jwt-static", .str c.static), ("x-jwt-session", .str c.session),
        ("x-jwt-dynamic", .str c.dynamic), ("x-jwt-sig", .str c.signature)]

/-- The payload field names the bucket tables can reproduce (bucket order, as
the merged payload lists them). -/
def knownPayloadFields : List String :=
  ["iss", "aud", "name", "sub", "session_id", "market_id", "currency", "cart_id",
    "exp", "iat", "jti"]

/-- Decode and parse the header segment of a three-segment token. -/
def tokenHeaderObj (t : String) : Option Obj :=
  match splitDots t.data with
  | [h, _, _] => segJson h
  | _ => none

/-- Decode and parse the payload segment of a three-segment token. -/
def tokenPayloadObj (t : String) : Option Obj :=
  match splitDots t.data with
  | [_, p, _] => segJson p
  | _ => none

/-! ### Pipeline lemmas -/

theorem splitDots_ne_nil : ∀ (l : List Char), splitDots l ≠ []
  | [] => by simp [splitDots]
  | c :: rest => by
    rw [splitDots]
    by_cases h : c = '.'
    · rw [if_pos h]; simp
    · rw [if_neg h]
      cases hs : splitDots rest with
      | nil => simp
      | cons g gs => simp

theorem splitDots_segments_dotfree :
    ∀ (l : List Char), ∀ seg ∈ splitDots l, ∀ c ∈ seg, c ≠ '.'
  | [], seg, hseg, c, hc => by
    simp [splitDots] at hseg
    subst hseg
    simp at hc
  | c0 :: rest, seg, hseg, c, hc => by
    rw [splitDots] at hseg
    by_cases h : c0 = '.'
    · rw [if_pos h] at hseg
      rcases List.mem_cons.mp hseg with rfl | hmem
      · simp at hc
      · exact splitDots_segments_dotfree rest seg hmem c hc
    · rw [if_neg h] at hseg
      cases hs : splitDots rest with
      | nil => exact absurd hs (splitDots_ne_nil rest)
      | cons g gs =>
        rw [hs] at hseg
        rcases List.mem_cons.mp hseg with rfl | hmem
        · rcases List.mem_cons.mp hc with rfl | hcg
          · exact h
          · exact splitDots_segments_dotfree rest g (by rw [hs]; simp) c hcg
        · exact splitDots_segments_dotfree rest seg (by rw [hs]; simp [hmem]) c hc

theorem splitDots_dotfree :
    ∀ (l : List Char), (∀ c ∈ l, c ≠ '.') → splitDots l = [l]
  | [], _ => rfl
  | c :: rest, h => by
    rw [splitDots, if_neg (h c (by simp)), splitDots_dotfree rest (fun x hx => h x (by simp [hx]))]

theorem splitDots_append_dot :
    ∀ (l rest : List Char), (∀ c ∈ l, c ≠ '.') →
      splitDots (l ++ '.' :: rest) = l :: splitDots rest
  | [], rest, _ => by rw [List.nil_append, splitDots, if_pos rfl]
  | c :: l, rest, h => by
    rw [List.cons_append, splitDots, if_neg (h c (by simp)),
      splitDots_append_dot l rest (fun x hx => h x (by simp [hx]))]

theorem strictB64Val_ne_dot {c : Char} (h : (strictB64Val c).isSome) : c ≠ '.' := by
  intro hc
  subst hc
  exact absurd h (by decide)

theorem base64url_encodeL_dotfree (cs : List Char) :
    ∀ c ∈ base64url_encodeL cs, c ≠ '.' := by
  intro c hc
  exact strictB64Val_ne_dot
    (strictChars_b64encBytes (utf8Encode cs) (utf8Encode_lt_256 cs) c hc)

/-- Splitting a reassembled three-segment token whose segments are dot-free. -/
theorem splitDots_token (a b : List Char) (sg : List Char)
    (ha : ∀ c ∈ a, c ≠ '.') (hb : ∀ c ∈ b, c ≠ '.') (hs : ∀ c ∈ sg, c ≠ '.') :
    splitDots (a ++ '.' :: (b ++ '.' :: sg)) = [a, b, sg] := by
  rw [splitDots_append_dot a _ ha, splitDots_append_dot b _ hb, splitDots_dotfree sg hs]

/-- Inversion of a successful decomposition. -/
theorem decompose_jwt_inv {jwt : String} {f : Frags} (hd : decompose_jwt jwt = some f) :
    ∃ h64 p64 s64 H P,
      splitDots jwt.data = [h64, p64, s64] ∧ segJson h64 = some H ∧ segJson p64 = some P ∧
      f = { static := b64JsonDefault (static_claims H P),
            session := b64JsonDefault (session_claims P),
            dynamic := b64JsonDefault (dynamic_claims P),
            signature := String.mk s64 } := by
  unfold decompose_jwt at hd
  by_cases he : jwt = ""
  · rw [if_pos he] at hd
    exact Option.noConfusion hd
  · rw [if_neg he] at hd
    cases hsp : splitDots jwt.data with
    | nil => exact absurd hsp (splitDots_ne_nil _)
    | cons l1 t1 =>
      rw [hsp] at hd
      cases t1 with
      | nil => exact Option.noConfusion hd
      | cons l2 t2 =>
        cases t2 with
        | nil => exact Option.noConfusion hd
        | cons l3 t3 =>
          cases t3 with
          | cons l4 t4 => exact Option.noConfusion hd
          | nil =>
            dsimp only at hd
            cases hh : segJson l1 with
            | none => rw [hh] at hd; exact Option.noConfusion hd
            | some H =>
              cases hp : segJson l2 with
              | none => rw [hh, hp] at hd; exact Option.noConfusion hd
              | some P =>
                rw [hh, hp] at hd
                exact ⟨l1, l2, l3, H, P, rfl, hh, hp, (Option.some_inj.mp hd).symm⟩

/-- Forward direction: a token with three segments whose header and payload
decode produces exactly the four fragments. -/
theorem decompose_jwt_eq {jwt : String} {h64 p64 s64 : List Char} {H P : Obj}
    (hsp : splitDots jwt.data = [h64, p64, s64])
    (hh : segJson h64 = some H) (hp : segJson p64 = some P) :
    decompose_jwt jwt =
      some { static := b64JsonDefault (static_claims H P),
             session := b64JsonDefault (session_claims P),
             dynamic := b64JsonDefault (dynamic_claims P),
             signature := String.mk s64 } := by
  have hne : jwt ≠ "" := by
    intro he
    subst he
    rw [show ("" : String).data = [] from rfl] at hsp
    simp [splitDots] at hsp
  unfold decompose_jwt
  rw [if_neg hne, hsp]
  dsimp only
  rw [hh, hp]

theorem decompose_jwt_empty : decompose_jwt "" = none := rfl

/-- Attach with compression enabled and a decomposable token appends exactly
the four fragment entries. -/
theorem add_compressed_jwt_frags {env : Option String} {jwt : String} {c : Frags}
    (henv : is_jwt_compression_enabled env = true) (hd : decompose_jwt jwt = some c)
    (metadata : List (String × MetaVal)) :
    add_compressed_jwt env metadata jwt =
      metadata ++ [("x-jwt-static", .str c.static), ("x-jwt-session", .str c.session),
        ("x-jwt-dynamic", .str c.dynamic), ("x-jwt-sig", .str c.signature)] := by
  have hne : jwt ≠ "" := by
    intro he
    subst he
    exact Option.noConfusion (decompose_jwt_empty ▸ hd)
  unfold add_compressed_jwt
  rw [if_neg (by simp [hne, henv]), hd]

theorem mkString_ne_empty {l : List Char} (h : l ≠ []) : String.mk l ≠ "" := by
  intro he
  exact h (congrArg String.data he)

theorem b64JsonDefault_ne_empty (o : Obj) : b64JsonDefault o ≠ "" :=
  mkString_ne_empty (base64url_encodeL_dumps_ne_nil _ _ o)

theorem truthy_some {s : String} (h : s ≠ "") : truthy (some s) = true := by
  unfold truthy
  simp [h]

/-- `reassemble_jwt` on a metadata list holding exactly the four fragment
entries (all nonempty) takes the compressed branch. -/
theorem reassemble_four_frags (a b c d : String)
    (ha : a ≠ "") (hb : b ≠ "") (hc : c ≠ "") (hd : d ≠ "") :
    reassemble_jwt [("x-jwt-static", .str a), ("x-jwt-session", .str b),
      ("x-jwt-dynamic", .str c), ("x-jwt-sig", .str d)] =
      .ok (compressedResult a b c d) := by
  unfold reassemble_jwt
  rw [show convertMeta [("x-jwt-static", .str a), ("x-jwt-session", .str b),
      ("x-jwt-dynamic", .str c), ("x-jwt-sig", .str d)] =
    some [("x-jwt-static", a), ("x-jwt-session", b), ("x-jwt-dynamic", c), ("x-jwt-sig", d)]
    from rfl]
  dsimp only
  rw [show toDictS [("x-jwt-static", a), ("x-jwt-session", b), ("x-jwt-dynamic", c),
      ("x-jwt-sig", d)] =
    [("x-jwt-static", a), ("x-jwt-session", b), ("x-jwt-dynamic", c), ("x-jwt-sig", d)]
    from rfl]
  rw [show aget [("x-jwt-static", a), ("x-jwt-session", b), ("x-jwt-dynamic", c),
      ("x-jwt-sig", d)] "x-jwt-static" = some a from rfl]
  rw [show aget [("x-jwt-static", a), ("x-jwt-session", b), ("x-jwt-dynamic", c),
      ("x-jwt-sig", d)] "x-jwt-session" = some b from rfl]
  rw [show aget [("x-jwt-static", a), ("x-jwt-session", b), ("x-jwt-dynamic", c),
      ("x-jwt-sig", d)] "x-jwt-dynamic" = some c from rfl]
  rw [show aget [("x-jwt-static", a), ("x-jwt-session", b), ("x-jwt-dynamic", c),
      ("x-jwt-sig", d)] "x-jwt-sig" = some d from rfl]
  rw [if_pos ⟨truthy_some ha, truthy_some hb, truthy_some hc, truthy_some hd⟩]
  rfl

theorem static_claims_nodup (H P : Obj) : nodupKeys (static_claims H P) := by
  unfold nodupKeys static_claims dkeys
  simp

theorem session_claims_nodup (P : Obj) : nodupKeys (session_claims P) := by
  unfold nodupKeys session_claims dkeys
  simp

theorem dynamic_claims_nodup (P : Obj) : nodupKeys (dynamic_claims P) := by
  unfold nodupKeys dynamic_claims dkeys
  simp

/-- Parsing back a default-separator fragment. -/
theorem segJson_b64JsonDefault (o : Obj) (hn : nodupKeys o) :
    segJson (b64JsonDefault o).data = some o := by
  show segJson (base64url_encodeL (dumpsDefaultL o)) = some o
  exact segJson_encode_dumps o hn [' '] [' ']
    (by intro c hc; simp at hc; subst hc; exact Or.inl rfl)
    (by intro c hc; simp at hc; subst hc; exact Or.inl rfl)

/-- Parsing back a compact fragment. -/
theorem segJson_b64JsonCompact (o : Obj) (hn : nodupKeys o) :
    segJson (b64JsonCompact o).data = some o := by
  show segJson (base64url_encodeL (dumpsCompactL o)) = some o
  exact segJson_encode_dumps o hn [] [] (by intro c hc; simp at hc)
    (by intro c hc; simp at hc)

theorem dkeys_static (H P : Obj) :
    dkeys (static_claims H P) = ["alg", "typ", "iss", "aud", "name"] := rfl

theorem dkeys_session (P : Obj) :
    dkeys (session_claims P) = ["sub", "session_id", "market_id", "currency", "cart_id"] := rfl

theorem dkeys_dynamic (P : Obj) : dkeys (dynamic_claims P) = ["exp", "iat", "jti"] := rfl

/-- The merged payload of the three buckets lists exactly the known payload
fields, in bucket order, with the payload's value or `null`. -/
theorem pyMerge_buckets (H P : Obj) :
    pyMergePayload (static_claims H P) (session_claims P) (dynamic_claims P) =
      knownPayloadFields.map (fun k => (k, jget P k)) := by
  unfold pyMergePayload
  rw [foldUpsert_nil_nodup _ (static_claims_nodup H P)]
  rw [foldUpsert_disjoint _ _ (session_claims_nodup P) ?_]
  rw [foldUpsert_disjoint _ _ (dynamic_claims_nodup P) ?_]
  · show ((static_claims H P ++ session_claims P ++ dynamic_claims P).filter
      (fun p => p.1 != "alg")).filter (fun p => p.1 != "typ") = _
    rfl
  · intro k hk
    rw [dkeys_dynamic] at hk
    unfold dkeys
    rw [List.map_append, show List.map Prod.fst (static_claims H P) =
      ["alg", "typ", "iss", "aud", "name"] from rfl,
      show List.map Prod.fst (session_claims P) =
      ["sub", "session_id", "market_id", "currency", "cart_id"] from rfl]
    simp only [List.mem_cons, List.not_mem_nil, or_false] at hk
    rcases hk with rfl | rfl | rfl <;> decide
  · intro k hk
    rw [dkeys_session] at hk
    rw [dkeys_static]
    simp only [List.mem_cons, List.not_mem_nil, or_false] at hk
    rcases hk with rfl | rfl | rfl | rfl | rfl <;> decide

/-- The header rebuilt from the static bucket reads `alg`/`typ` from the
original header. -/
theorem rebuilt_header (H P : Obj) :
    [("alg", jget (static_claims H P) "alg"), ("typ", jget (static_claims H P) "typ")] =
      [("alg", jget H "alg"), ("typ", jget H "typ")] := rfl

theorem rebuilt_header_nodup (H : Obj) :
    nodupKeys [("alg", jget H "alg"), ("typ", jget H "typ")] := by
  unfold nodupKeys dkeys
  simp

theorem knownPayload_map_nodup (P : Obj) :
    nodupKeys (knownPayloadFields.map (fun k => (k, jget P k))) := by
  unfold nodupKeys dkeys knownPayloadFields
  simp

/-- The full sender-to-receiver round trip: decompose a three-segment token,
attach the four fragments to an empty metadata list, reassemble, and decode
the segments of the result. -/
theorem pipeline_roundtrip {env : Option String} {jwt : String} {h64 p64 s64 : List Char}
    {H P : Obj} (henv : is_jwt_compression_enabled env = true)
    (hsp : splitDots jwt.data = [h64, p64, s64])
    (hh : segJson h64 = some H) (hp : segJson p64 = some P) (hs : s64 ≠ []) :
    ∃ rt, reassemble_jwt (add_compressed_jwt env [] jwt) = .ok (some rt) ∧
      tokenHeaderObj rt = some [("alg", jget H "alg"), ("typ", jget H "typ")] ∧
      tokenPayloadObj rt = some (knownPayloadFields.map (fun k => (k, jget P k))) := by
  have hd := decompose_jwt_eq hsp hh hp
  rw [add_compressed_jwt_frags henv hd []]
  rw [List.nil_append]
  dsimp only
  rw [reassemble_four_frags _ _ _ _ (b64JsonDefault_ne_empty _) (b64JsonDefault_ne_empty _)
    (b64JsonDefault_ne_empty _) (mkString_ne_empty hs)]
  unfold compressedResult
  rw [segJson_b64JsonDefault _ (static_claims_nodup H P),
    segJson_b64JsonDefault _ (session_claims_nodup P),
    segJson_b64JsonDefault _ (dynamic_claims_nodup P)]
  dsimp only
  rw [pyMerge_buckets, rebuilt_header]
  refine ⟨_, rfl, ?_, ?_⟩
  · unfold tokenHeaderObj
    rw [show (b64JsonCompact [("alg", jget H "alg"), ("typ", jget H "typ")] ++ "." ++
        b64JsonCompact (knownPayloadFields.map (fun k => (k, jget P k))) ++ "." ++
        String.mk s64).data =
      base64url_encodeL (dumpsCompactL [("alg", jget H "alg"), ("typ", jget H "typ")]) ++ '.' ::
        (base64url_encodeL (dumpsCompactL (knownPayloadFields.map (fun k => (k, jget P k)))) ++
          '.' :: s64) by
      simp [b64JsonCompact, String.data_append, List.append_assoc]]
    rw [splitDots_token _ _ _ (base64url_encodeL_dotfree _) (base64url_encodeL_dotfree _)
      (splitDots_segments_dotfree jwt.data s64 (by rw [hsp]; simp))]
    exact segJson_b64JsonCompact _ (rebuilt_header_nodup H)
  · unfold tokenPayloadObj
    rw [show (b64JsonCompact [("alg", jget H "alg"), ("typ", jget H "typ")] ++ "." ++
        b64JsonCompact (knownPayloadFields.map (fun k => (k, jget P k))) ++ "." ++
        String.mk s64).data =
      base64url_encodeL (dumpsCompactL [("alg", jget H "alg"), ("typ", jget H "typ")]) ++ '.' ::
        (base64url_encodeL (dumpsCompactL (knownPayloadFields.map (fun k => (k, jget P k)))) ++
          '.' :: s64) by
      simp [b64JsonCompact, String.data_append, List.append_assoc]]
    rw [splitDots_token _ _ _ (base64url_encodeL_dotfree _) (base64url_encodeL_dotfree _)
      (splitDots_segments_dotfree jwt.data s64 (by rw [hsp]; simp))]
    exact segJson_b64JsonCompact _ (knownPayload_map_nodup P)

/-! ### Lookup helpers for the claim statements -/

theorem aget_map_not_mem (keys : List String) (g : String → JsonVal) {k : String}
    (h : k ∉ keys) : aget (keys.map (fun k2 => (k2, g k2))) k = none := by
  induction keys with
  | nil => rfl
  | cons k0 keys ih =>
    unfold aget
    rw [List.map_cons, List.find?]
    have hne : ¬ (k0 = k) := fun he => h (by simp [he])
    rw [show (decide ((k0, g k0).1 = k)) = false by simp [hne]]
    exact ih (fun hm => h (by simp [hm]))

theorem aget_map_mem (keys : List String) (g : String → JsonVal) {k : String}
    (h : k ∈ keys) : aget (keys.map (fun k2 => (k2, g k2))) k = some (g k) := by
  induction keys with
  | nil => simp at h
  | cons k0 keys ih =>
    unfold aget
    rw [List.map_cons, List.find?]
    by_cases he : k0 = k
    · subst he
      rw [show (decide ((k0, g k0).1 = k0)) = true by simp]
      rfl
    · rw [show (decide ((k0, g k0).1 = k)) = false by simp [he]]
      exact ih (by rcases List.mem_cons.mp h with rfl | hm; exact absurd rfl he; exact hm)

/-- Executable Python-dict equality: same lookups on both key sets. -/
def dictEqvB (a b : Obj) : Bool :=
  (a.map (·.1) ++ b.map (·.1)).all (fun k => aget a k == aget b k)

theorem dictEqvB_of_lookups {a b : Obj} (h : ∀ k, aget a k = aget b k) :
    dictEqvB a b = true := by
  unfold dictEqvB
  rw [List.all_eq_true]
  intro k _
  rw [h k]
  simp

/-! ### Reassembly over text-valued metadata -/

/-- Lift a list of text metadata entries into the model's metadata type. -/
def strMeta (md : List (String × String)) : List (String × MetaVal) :=
  md.map (fun p => (p.1, .str p.2))

theorem convertMeta_strMeta : ∀ (md : List (String × String)),
    convertMeta (strMeta md) = some md
  | [] => rfl
  | (k, s) :: md => by
    show convertMeta ((k, .str s) :: strMeta md) = _
    rw [convertMeta, convertMeta_strMeta md]
    rfl

/-- Characterization of `reassemble_jwt` on text metadata: the compressed
branch is chosen exactly when the four fragment lookups are truthy, and the
fallback branch otherwise. -/
theorem reassemble_strMeta (md : List (String × String)) :
    reassemble_jwt (strMeta md) =
      (if truthy (aget (toDictS md) "x-jwt-static") ∧
          truthy (aget (toDictS md) "x-jwt-session") ∧
          truthy (aget (toDictS md) "x-jwt-dynamic") ∧
          truthy (aget (toDictS md) "x-jwt-sig") then
        .ok (compressedResult ((aget (toDictS md) "x-jwt-static").getD "")
          ((aget (toDictS md) "x-jwt-session").getD "")
          ((aget (toDictS md) "x-jwt-dynamic").getD "")
          ((aget (toDictS md) "x-jwt-sig").getD ""))
      else .ok (bearerFallback (toDictS md))) := by
  unfold reassemble_jwt
  rw [convertMeta_strMeta md]

/-! ### Lookup through `upsert` and merge (for the collision claim) -/

theorem aget_map_upsert_ne {α : Type} (k k2 : String) (v : α) (hne : k2 ≠ k) :
    ∀ (d : List (String × α)),
      aget (d.map (fun p => if p.1 = k then (k, v) else p)) k2 = aget d k2
  | [] => rfl
  | (a, w) :: d => by
    rw [List.map_cons]
    unfold aget
    rw [List.find?, List.find?]
    by_cases hak : a = k
    · rw [show (if (a, w).1 = k then (k, v) else (a, w)) = (k, v) from by simp [hak]]
      rw [show (decide ((k, v).1 = k2)) = false by simp [Ne.symm hne]]
      rw [show (decide ((a, w).1 = k2)) = false by simp [hak, Ne.symm hne]]
      exact aget_map_upsert_ne k k2 v hne d
    · rw [show (if (a, w).1 = k then (k, v) else (a, w)) = (a, w) from by simp [hak]]
      cases hd2 : decide ((a, w).1 = k2) with
      | true => rfl
      | false => exact aget_map_upsert_ne k k2 v hne d

theorem aget_map_upsert_eq {α : Type} (k : String) (v : α) :
    ∀ (d : List (String × α)), d.any (fun p => p.1 = k) = true →
      aget (d.map (fun p => if p.1 = k then (k, v) else p)) k = some v
  | [], h => by simp at h
  | (a, w) :: d, h => by
    rw [List.map_cons]
    unfold aget
    rw [List.find?]
    by_cases hak : a = k
    · rw [show (if (a, w).1 = k then (k, v) else (a, w)) = (k, v) from by simp [hak]]
      rw [show (decide ((k, v).1 = k)) = true by simp]
      rfl
    · rw [show (if (a, w).1 = k then (k, v) else (a, w)) = (a, w) from by simp [hak]]
      rw [show (decide ((a, w).1 = k)) = false by simp [hak]]
      refine aget_map_upsert_eq k v d ?_
      rw [List.any_cons] at h
      simp only [Bool.or_eq_true] at h
      rcases h with h | h
      · simp at h
        exact absurd h hak
      · exact h

theorem aget_upsert {α : Type} (d : List (String × α)) (k k2 : String) (v : α) :
    aget (upsert d k v) k2 = if k2 = k then some v else aget d k2 := by
  unfold upsert
  by_cases hany : d.any (fun p => p.1 = k) = true
  · rw [if_pos hany]
    by_cases h2 : k2 = k
    · subst h2
      rw [if_pos rfl]
      exact aget_map_upsert_eq k2 v d hany
    · rw [if_neg h2]
      exact aget_map_upsert_ne k k2 v h2 d
  · rw [if_neg hany]
    unfold aget
    rw [List.find?_append]
    by_cases h2 : k2 = k
    · subst h2
      have hnone : d.find? (fun p => decide (p.1 = k2)) = none := by
        rw [List.find?_eq_none]
        intro p hp
        simp only [decide_eq_true_eq]
        intro he
        exact hany (by rw [List.any_eq_true]; exact ⟨p, hp, by simp [he]⟩)
      rw [hnone, if_pos rfl]
      rw [show ((none : Option (String × α)).or (List.find? (fun p => decide (p.1 = k2))
        [(k2, v)])) = List.find? (fun p => decide (p.1 = k2)) [(k2, v)] from rfl]
      rw [List.find?]
      rw [show (decide ((k2, v).1 = k2)) = true by simp]
      rfl
    · rw [if_neg h2]
      have h1 : List.find? (fun p => decide (p.1 = k2)) [(k, v)] = none := by
        rw [List.find?]
        rw [show (decide ((k, v).1 = k2)) = false by simp [Ne.symm h2]]
        rfl
      rw [h1]
      cases hf : d.find? (fun p => decide (p.1 = k2)) <;> rfl

theorem aget_eq_none_of_not_mem {α : Type} {xs : List (String × α)} {k : String}
    (h : k ∉ dkeys xs) : aget xs k = none := by
  unfold aget
  rw [show (List.find? (fun p => decide (p.1 = k)) xs) = none from ?_]
  · rfl
  · rw [List.find?_eq_none]
    intro p hp
    simp only [decide_eq_true_eq]
    intro he
    exact h (by unfold dkeys; exact List.mem_map.mpr ⟨p, hp, he⟩)

theorem aget_cons {α : Type} (a : String) (w : α) (xs : List (String × α)) (k : String) :
    aget ((a, w) :: xs) k = if a = k then some w else aget xs k := by
  unfold aget
  rw [List.find?]
  by_cases h : a = k
  · rw [show (decide ((a, w).1 = k)) = true by simp [h], if_pos h]
    rfl
  · rw [show (decide ((a, w).1 = k)) = false by simp [h], if_neg h]

theorem aget_foldUpsert_nodup {α : Type} :
    ∀ (xs d : List (String × α)), nodupKeys xs →
      ∀ k, aget (foldUpsert d xs) k = (aget xs k).or (aget d k)
  | [], d, _, k => by
    show aget d k = (aget ([] : List (String × α)) k).or (aget d k)
    rw [show aget ([] : List (String × α)) k = none from rfl, Option.none_or]
  | (a, w) :: xs, d, hnd, k => by
    show aget (foldUpsert (upsert d a w) xs) k = _
    have hnd2 : nodupKeys xs := by
      unfold nodupKeys dkeys at hnd ⊢
      rw [List.map_cons, List.nodup_cons] at hnd
      exact hnd.2
    rw [aget_foldUpsert_nodup xs (upsert d a w) hnd2 k, aget_upsert, aget_cons]
    by_cases h : k = a
    · subst h
      have : aget xs k = none := by
        refine aget_eq_none_of_not_mem ?_
        unfold nodupKeys dkeys at hnd
        rw [List.map_cons, List.nodup_cons] at hnd
        exact hnd.1
      rw [this, if_pos rfl, if_pos rfl, Option.none_or]
      rfl
    · rw [if_neg h, if_neg (fun he => h he.symm)]

theorem aget_filter_ne {α : Type} (s : String) {k : String} (hk : k ≠ s) :
    ∀ (l : List (String × α)), aget (l.filter (fun p => p.1 != s)) k = aget l k
  | [] => rfl
  | (a, w) :: l => by
    rw [List.filter_cons]
    by_cases has : a = s
    · rw [show ((a, w).1 != s) = false by simp [has], if_neg (by simp)]
      rw [aget_cons, if_neg (fun he => hk (by rw [← he, has])),
        aget_filter_ne s hk l]
    · rw [show ((a, w).1 != s) = true by simp [has], if_pos rfl]
      rw [aget_cons, aget_cons, aget_filter_ne s hk l]

/-- Lookup in the merged payload: the dynamic bucket wins over the session
bucket, which wins over the static bucket — CPython `{**a, **b, **c}`
right-to-left precedence, with `alg`/`typ` popped. -/
theorem pyMergePayload_lookup (sc ss dc : Obj) (hsc : nodupKeys sc) (hss : nodupKeys ss)
    (hdc : nodupKeys dc) (k : String) (h1 : k ≠ "alg") (h2 : k ≠ "typ") :
    aget (pyMergePayload sc ss dc) k = (aget dc k).or ((aget ss k).or (aget sc k)) := by
  unfold pyMergePayload
  rw [aget_filter_ne "typ" h2, aget_filter_ne "alg" h1]
  rw [aget_foldUpsert_nodup dc _ hdc, aget_foldUpsert_nodup ss _ hss,
    aget_foldUpsert_nodup sc _ hsc]
  rw [show aget ([] : Obj) k = none from rfl, Option.or_none]

/-! ### Helpers for the remaining claims -/

theorem refB64Decode_isSome :
    ∀ (cs : List Char), strictChars cs → cs.length % 4 ≠ 1 →
      ∃ bs, refB64Decode cs = some bs
  | [], _, _ => ⟨[], rfl⟩
  | [c1], _, hm => by simp at hm
  | [c1, c2], h, _ => by
    obtain ⟨v1, hv1⟩ := Option.isSome_iff_exists.mp (h c1 (by simp))
    obtain ⟨v2, hv2⟩ := Option.isSome_iff_exists.mp (h c2 (by simp))
    exact ⟨_, by rw [refB64Decode, hv1, hv2]⟩
  | [c1, c2, c3], h, _ => by
    obtain ⟨v1, hv1⟩ := Option.isSome_iff_exists.mp (h c1 (by simp))
    obtain ⟨v2, hv2⟩ := Option.isSome_iff_exists.mp (h c2 (by simp))
    obtain ⟨v3, hv3⟩ := Option.isSome_iff_exists.mp (h c3 (by simp))
    exact ⟨_, by rw [refB64Decode, hv1, hv2, hv3]⟩
  | c1 :: c2 :: c3 :: c4 :: rest, h, hm => by
    obtain ⟨v1, hv1⟩ := Option.isSome_iff_exists.mp (h c1 (by simp))
    obtain ⟨v2, hv2⟩ := Option.isSome_iff_exists.mp (h c2 (by simp))
    obtain ⟨v3, hv3⟩ := Option.isSome_iff_exists.mp (h c3 (by simp))
    obtain ⟨v4, hv4⟩ := Option.isSome_iff_exists.mp (h c4 (by simp))
    obtain ⟨bs, hbs⟩ := refB64Decode_isSome rest (fun c hc => h c (by simp [hc]))
      (by simp at hm ⊢; omega)
    exact ⟨_, by rw [refB64Decode, hv1, hv2, hv3, hv4]; dsimp only; rw [hbs]; rfl⟩

/-- The source decoder agrees with the reference decoder on strict-alphabet
input, also with partial padding appended; a data length of 1 mod 4 fails. -/
theorem base64url_decodeL_clean (cs : List Char) (h : strictChars cs) :
    ((cs.length % 4 = 0 ∨ cs.length % 4 = 2 ∨ cs.length % 4 = 3) →
      base64url_decodeL cs = refB64Decode cs) ∧
    (cs.length % 4 = 2 → base64url_decodeL (cs ++ ['=']) = refB64Decode cs ∧
      base64url_decodeL (cs ++ ['=', '=']) = refB64Decode cs) ∧
    (cs.length % 4 = 3 → base64url_decodeL (cs ++ ['=']) = refB64Decode cs) ∧
    (cs.length % 4 = 1 → base64url_decodeL cs = none) := by
  have hc := a2b_clean cs h
  refine ⟨?_, ?_, ?_, ?_⟩
  · rintro (hm | hm | hm)
    · unfold base64url_decodeL b64PadInput
      rw [if_pos hm]
      exact hc.1 hm
    · unfold base64url_decodeL b64PadInput
      rw [if_neg (by omega), show 4 - cs.length % 4 = 2 by omega,
        show List.replicate 2 '=' = ['=', '='] from rfl]
      exact hc.2.1 hm
    · unfold base64url_decodeL b64PadInput
      rw [if_neg (by omega), show 4 - cs.length % 4 = 1 by omega,
        show List.replicate 1 '=' = ['='] from rfl]
      exact hc.2.2.1 hm
  · intro hm
    constructor
    · unfold base64url_decodeL b64PadInput
      rw [if_neg (by simp; omega), show 4 - (cs ++ ['=']).length % 4 = 1 by simp; omega,
        show List.replicate 1 '=' = ['='] from rfl, List.append_assoc]
      exact hc.2.1 hm
    · unfold base64url_decodeL b64PadInput
      rw [if_pos (by simp; omega)]
      exact hc.2.1 hm
  · intro hm
    unfold base64url_decodeL b64PadInput
    rw [if_pos (by simp; omega)]
    exact hc.2.2.1 hm
  · intro hm
    unfold base64url_decodeL b64PadInput
    rw [if_neg (by omega), show 4 - cs.length % 4 = 3 by omega,
      show List.replicate 3 '=' = ['=', '=', '='] from rfl]
    exact hc.2.2.2 hm

theorem hexDig_not_ws {d : Nat} (hd : d < 16) : ¬ isWsChar (hexDig d) := by
  unfold hexDig
  rw [isWsChar_iff_toNat]
  by_cases h : d < 10
  · rw [if_pos h, char_toNat_ofNat_lt (by omega)]
    omega
  · rw [if_neg h, char_toNat_ofNat_lt (by omega)]
    omega

theorem toHex4_not_ws (n : Nat) : ∀ c ∈ toHex4 n, ¬ isWsChar c := by
  intro c hc
  unfold toHex4 at hc
  simp only [List.mem_cons, List.not_mem_nil, or_false] at hc
  rcases hc with rfl | rfl | rfl | rfl <;> exact hexDig_not_ws (by omega)

theorem escChar_not_ws {c : Char} (h : ¬ isWsChar c) : ∀ x ∈ escChar c, ¬ isWsChar x := by
  intro x hx
  unfold escChar at hx
  split_ifs at hx with h1 h2 h3 h4 h5 h6 h7 h8 h9
  · simp at hx; rcases hx with rfl | rfl <;> decide
  · simp at hx; rcases hx with rfl | rfl <;> decide
  · simp at hx; rcases hx with rfl | rfl <;> decide
  · simp at hx; rcases hx with rfl | rfl <;> decide
  · simp at hx; rcases hx with rfl | rfl <;> decide
  · simp at hx; rcases hx with rfl | rfl <;> decide
  · simp at hx; rcases hx with rfl | rfl <;> decide
  · simp at hx; subst hx; exact h
  · simp only [List.mem_cons] at hx
    rcases hx with rfl | rfl | hx
    · decide
    · decide
    · exact toHex4_not_ws _ x hx
  · simp only [List.mem_append, List.mem_cons] at hx
    rcases hx with (rfl | rfl | hx) | (rfl | rfl | hx)
    · decide
    · decide
    · exact toHex4_not_ws _ x hx
    · decide
    · decide
    · exact toHex4_not_ws _ x hx

theorem dumpStrL_not_ws {s : String} (h : ∀ c ∈ s.data, ¬ isWsChar c) :
    ∀ x ∈ dumpStrL s, ¬ isWsChar x := by
  intro x hx
  unfold dumpStrL at hx
  simp only [List.mem_cons, List.mem_append, List.mem_singleton] at hx
  rcases hx with rfl | hx | hlast
  · decide
  · rw [List.mem_flatMap] at hx
    obtain ⟨c, hc, hxc⟩ := hx
    exact escChar_not_ws (h c hc) x hxc
  · rcases hlast with rfl | h0
    · decide
    · simp at h0

/-- A whitespace-free JSON value: strings must not contain whitespace
(other values never serialize to whitespace). -/
def wsFreeVal : JsonVal → Prop
  | .str s => ∀ c ∈ s.data, ¬ isWsChar c
  | _ => True

/-- A whitespace-free object: every key and every string value. -/
def wsFreeObj (o : Obj) : Prop :=
  ∀ p ∈ o, (∀ c ∈ p.1.data, ¬ isWsChar c) ∧ wsFreeVal p.2

theorem dumpValL_not_ws {v : JsonVal} (h : wsFreeVal v) : ∀ x ∈ dumpValL v, ¬ isWsChar x := by
  intro x hx
  cases v with
  | null => simp [dumpValL] at hx; rcases hx with rfl | rfl | rfl | rfl <;> decide
  | bool b =>
    cases b <;> simp [dumpValL] at hx
    · rcases hx with rfl | rfl | rfl | rfl | rfl <;> decide
    · rcases hx with rfl | rfl | rfl | rfl <;> decide
  | num i =>
    have hx2 : x ∈ intToDec i := hx
    unfold intToDec at hx2
    by_cases hneg : i < 0
    · rw [if_pos hneg] at hx2
      rcases List.mem_cons.mp hx2 with rfl | hm
      · decide
      · obtain ⟨d, hd, rfl⟩ := natToDec_digits _ x hm
        rw [isWsChar_iff_toNat, digitCh_toNat hd]
        omega
    · rw [if_neg hneg] at hx2
      obtain ⟨d, hd, rfl⟩ := natToDec_digits _ x hx2
      rw [isWsChar_iff_toNat, digitCh_toNat hd]
      omega
  | str s => exact dumpStrL_not_ws h x hx

theorem memberDump_compact_not_ws {m : String × JsonVal}
    (hk : ∀ c ∈ m.1.data, ¬ isWsChar c) (hv : wsFreeVal m.2) :
    ∀ x ∈ memberDump [':'] m, ¬ isWsChar x := by
  intro x hx
  unfold memberDump at hx
  simp only [List.mem_append, List.mem_singleton] at hx
  rcases hx with (hx | rfl) | hx
  · exact dumpStrL_not_ws hk x hx
  · decide
  · exact dumpValL_not_ws hv x hx

theorem joinMembers_not_ws (isep : List Char) (hisep : ∀ c ∈ isep, ¬ isWsChar c) :
    ∀ (pieces : List (List Char)), (∀ p ∈ pieces, ∀ x ∈ p, ¬ isWsChar x) →
      ∀ x ∈ joinMembers isep pieces, ¬ isWsChar x
  | [], _, x, hx => by simp [joinMembers] at hx
  | [m], h, x, hx => h m (by simp) x (by simpa [joinMembers] using hx)
  | m :: m1 :: ms, h, x, hx => by
    rw [show joinMembers isep (m :: m1 :: ms) = m ++ isep ++ joinMembers isep (m1 :: ms)
      from rfl] at hx
    simp only [List.mem_append] at hx
    rcases hx with (hx | hx) | hx
    · exact h m (by simp) x hx
    · exact hisep x hx
    · exact joinMembers_not_ws isep hisep (m1 :: ms) (fun p hp => h p (by simp [hp])) x hx

/-- The compact serialization used by `reassemble_jwt` contains no whitespace
at all when keys and string values are whitespace-free. -/
theorem dumpsCompactL_not_ws (o : Obj) (h : wsFreeObj o) :
    ∀ x ∈ dumpsCompactL o, ¬ isWsChar x := by
  intro x hx
  unfold dumpsCompactL dumpsWithL at hx
  simp only [List.mem_cons, List.mem_append, List.mem_singleton] at hx
  rcases hx with rfl | hx | hlast
  · decide
  · refine joinMembers_not_ws [','] (by intro c hc; simp at hc; subst hc; decide)
      _ ?_ x hx
    intro p hp
    rw [List.mem_map] at hp
    obtain ⟨m, hm, rfl⟩ := hp
    exact memberDump_compact_not_ws (h m hm).1 (h m hm).2
  · rcases hlast with rfl | h0
    · decide
    · simp at h0

theorem space_mem_memberDump_default (m : String × JsonVal) :
    ' ' ∈ memberDump [':', ' '] m := by
  unfold memberDump
  simp

theorem space_mem_dumpsDefaultL (m0 : String × JsonVal) (ms : List (String × JsonVal)) :
    ' ' ∈ dumpsDefaultL (m0 :: ms) := by
  unfold dumpsDefaultL dumpsWithL
  rw [List.mem_cons]
  right
  rw [List.mem_append]
  left
  rw [List.map_cons]
  cases ms with
  | nil =>
    rw [List.map_nil,
      show joinMembers [',', ' '] [memberDump [':', ' '] m0] = memberDump [':', ' '] m0
      from rfl]
    exact space_mem_memberDump_default m0
  | cons m1 ms =>
    rw [List.map_cons, show joinMembers [',', ' '] (memberDump [':', ' '] m0 ::
        memberDump [':', ' '] m1 :: (ms.map (memberDump [':', ' ']))) =
      memberDump [':', ' '] m0 ++ [',', ' '] ++ joinMembers [',', ' ']
        (memberDump [':', ' '] m1 :: (ms.map (memberDump [':', ' ']))) from rfl]
    simp only [List.mem_append]
    exact Or.inl (Or.inl (space_mem_memberDump_default m0))

/-- The decoded text of a fragment string. -/
def fragText (s : String) : Option (List Char) := (base64url_decode s).bind utf8Decode

theorem fragText_b64JsonDefault (o : Obj) :
    fragText (b64JsonDefault o) = some (dumpsDefaultL o) := by
  unfold fragText b64JsonDefault base64url_decode
  rw [show (String.mk (base64url_encodeL (dumpsDefaultL o))).data =
    base64url_encodeL (dumpsDefaultL o) from rfl]
  unfold base64url_encodeL
  rw [base64url_decode_encBytes _ (utf8Encode_lt_256 _), Option.some_bind, utf8Decode_encode]

theorem convertMeta_isSome :
    ∀ (md : List (String × MetaVal)),
      (∀ p ∈ md, ∀ bs, p.2 = MetaVal.bytes bs → (utf8Decode bs).isSome) →
      ∃ l, convertMeta md = some l
  | [], _ => ⟨[], rfl⟩
  | (k, MetaVal.str s) :: md, h => by
    obtain ⟨l, hl⟩ := convertMeta_isSome md (fun p hp => h p (by simp [hp]))
    exact ⟨(k, s) :: l, by rw [convertMeta, hl]; rfl⟩
  | (k, MetaVal.bytes bs) :: md, h => by
    obtain ⟨cs, hcs⟩ := Option.isSome_iff_exists.mp (h (k, .bytes bs) (by simp) bs rfl)
    obtain ⟨l, hl⟩ := convertMeta_isSome md (fun p hp => h p (by simp [hp]))
    exact ⟨(k, String.mk cs) :: l, by rw [convertMeta, hcs, hl]; rfl⟩

theorem decompose_not_three (jwt : String)
    (h : (splitDots jwt.data).length ≠ 3) : decompose_jwt jwt = none := by
  unfold decompose_jwt
  by_cases he : jwt = ""
  · rw [if_pos he]
  · rw [if_neg he]
    cases h1 : splitDots jwt.data with
    | nil => rfl
    | cons l1 t1 =>
      cases t1 with
      | nil => rfl
      | cons l2 t2 =>
        cases t2 with
        | nil => rfl
        | cons l3 t3 =>
          cases t3 with
          | nil => rw [h1] at h; simp at h
          | cons l4 t4 => rfl

theorem decompose_parse_fail (jwt : String) (h64 p64 s64 : List Char)
    (hsp : splitDots jwt.data = [h64, p64, s64])
    (h : segJson h64 = none ∨ segJson p64 = none) : decompose_jwt jwt = none := by
  have hne : jwt ≠ "" := by
    intro he
    subst he
    rw [show ("" : String).data = [] from rfl] at hsp
    simp [splitDots] at hsp
  unfold decompose_jwt
  rw [if_neg hne, hsp]
  dsimp only
  rcases h with h | h
  · rw [h]
  · rw [h]
    cases segJson h64 <;> rfl

/-- The bucket field tables as the spec lists them. -/
def static_fields : List String := ["alg", "typ", "iss", "aud", "name"]

def session_fields : List String := ["sub", "session_id", "market_id", "currency", "cart_id"]

def dynamic_fields : List String := ["exp", "iat", "jti"]

theorem aget_isSome_of_mem {α : Type} {xs : List (String × α)} {k : String}
    (h : k ∈ dkeys xs) : ∃ v, aget xs k = some v := by
  induction xs with
  | nil => simp [dkeys] at h
  | cons p xs ih =>
    obtain ⟨a, w⟩ := p
    rw [aget_cons]
    by_cases hak : a = k
    · rw [if_pos hak]
      exact ⟨w, rfl⟩
    · rw [if_neg hak]
      refine ih ?_
      unfold dkeys at h ⊢
      rw [List.map_cons, List.mem_cons] at h
      rcases h with h | h
      · exact absurd h.symm hak
      · exact h

/-- The rebuilt `{alg, typ}` header is dict-equal to a header whose key set is
exactly `alg`/`typ`. -/
theorem header_dictEqv (H : Obj)
    (hk : dkeys H = ["alg", "typ"] ∨ dkeys H = ["typ", "alg"]) :
    dictEqvB [("alg", jget H "alg"), ("typ", jget H "typ")] H = true := by
  refine dictEqvB_of_lookups ?_
  intro k
  by_cases ha : k = "alg"
  · subst ha
    rw [aget_cons, if_pos rfl]
    have hmem : "alg" ∈ dkeys H := by rcases hk with hk | hk <;> rw [hk] <;> simp
    obtain ⟨v, hv⟩ := aget_isSome_of_mem hmem
    rw [hv]
    unfold jget
    rw [hv]
    rfl
  · by_cases ht : k = "typ"
    · subst ht
      rw [aget_cons, if_neg (by decide), aget_cons, if_pos rfl]
      have hmem : "typ" ∈ dkeys H := by rcases hk with hk | hk <;> rw [hk] <;> simp
      obtain ⟨v, hv⟩ := aget_isSome_of_mem hmem
      rw [hv]
      unfold jget
      rw [hv]
      rfl
    · rw [aget_cons, if_neg (fun he => ha he.symm), aget_cons, if_neg (fun he => ht he.symm)]
      rw [show aget ([] : Obj) k = none from rfl]
      rw [aget_eq_none_of_not_mem ?_]
      rcases hk with hk | hk <;> rw [hk] <;> simp [ha, ht]

/-! ### Claims -/

/-- Concrete token: header `{"alg":"HS256","typ":"JWT"}`, payload `{"iss":"x"}`,
signature `sig`. -/
def c1tok : String :=
  base64url_encode "\x7b\"alg\":\"HS256\",\"typ\":\"JWT\"\x7d" ++ "." ++
    base64url_encode "\x7b\"iss\":\"x\"\x7d" ++ "." ++ "sig"

/-- C1 (counterexample): for the token with header `{alg, typ}` and payload
`{"iss": "x"}` — only known fields — the decoded payload of the reassembled
token is **not** equal to the original payload restricted to the known field
set: reassembly adds every missing known field with an explicit `null`. -/
theorem c1_counterexample :
    tokenPayloadObj c1tok = some [("iss", JsonVal.str "x")] ∧
    tokenHeaderObj c1tok = some [("alg", JsonVal.str "HS256"), ("typ", JsonVal.str "JWT")] ∧
    ((reassemble_jwt (add_compressed_jwt (some "true") [] c1tok)).toOption.bind
      (fun r => r.bind tokenPayloadObj)).map
      (fun pl => dictEqvB pl [("iss", JsonVal.str "x")]) = some false := by
  refine ⟨by decide, by decide, by decide⟩

/-- C1 (amended): for a token whose header parses with key set exactly
`alg, typ` and whose three segments split cleanly (nonempty signature), with
compression enabled, attaching to an empty metadata collection and
reassembling yields a token whose decoded header is dict-equal to the
original header and whose decoded payload maps **every** known payload field
to the original payload's value when present and to explicit `null`
otherwise — fields absent from the original do not stay absent, and unknown
fields never appear. -/
theorem c1_roundtrip_known_fields (env : Option String) (tok : String)
    (h64 p64 s64 : List Char) (H P : Obj)
    (henv : is_jwt_compression_enabled env = true)
    (hsp : splitDots tok.data = [h64, p64, s64])
    (hh : segJson h64 = some H) (hp : segJson p64 = some P) (hs : s64 ≠ [])
    (hHkeys : dkeys H = ["alg", "typ"] ∨ dkeys H = ["typ", "alg"]) :
    ∃ rt, reassemble_jwt (add_compressed_jwt env [] tok) = .ok (some rt) ∧
      (tokenHeaderObj rt).map (fun Ho => dictEqvB Ho H) = some true ∧
      tokenPayloadObj rt = some (knownPayloadFields.map (fun k => (k, jget P k))) := by
  obtain ⟨rt, hrt, hhd, hpl⟩ := pipeline_roundtrip henv hsp hh hp hs
  refine ⟨rt, hrt, ?_, hpl⟩
  rw [hhd]
  rw [show Option.map (fun Ho => dictEqvB Ho H)
    (some [("alg", jget H "alg"), ("typ", jget H "typ")]) =
    some (dictEqvB [("alg", jget H "alg"), ("typ", jget H "typ")] H) from rfl]
  rw [header_dictEqv H hHkeys]

/-- C1 (witness): the amended round trip at the concrete token `c1tok`. -/
theorem c1_witness :
    ∃ rt, reassemble_jwt (add_compressed_jwt (some "true") [] c1tok) = .ok (some rt) ∧
      (tokenHeaderObj rt).map
        (fun Ho => dictEqvB Ho [("alg", JsonVal.str "HS256"), ("typ", JsonVal.str "JWT")]) =
        some true ∧
      tokenPayloadObj rt =
        some (knownPayloadFields.map
          (fun k => (k, jget [("iss", JsonVal.str "x")] k))) :=
  c1_roundtrip_known_fields (some "true") c1tok
    (base64url_encode "\x7b\"alg\":\"HS256\",\"typ\":\"JWT\"\x7d").data
    (base64url_encode "\x7b\"iss\":\"x\"\x7d").data "sig".data
    [("alg", JsonVal.str "HS256"), ("typ", JsonVal.str "JWT")] [("iss", JsonVal.str "x")]
    (by decide) (by decide) (by decide) (by decide) (by decide) (by decide)

theorem known_in_buckets :
    ∀ k ∈ knownPayloadFields,
      (static_fields.contains k || session_fields.contains k ||
        dynamic_fields.contains k) = true := by decide

/-- C2: a field name outside the three bucket tables is dropped by
decomposition — none of the three decoded bucket fragments contains it — and
is absent from both the decoded header and the decoded payload of the
reassembled token. -/
theorem c2_lossy_field (env : Option String) (tok : String)
    (h64 p64 s64 : List Char) (H P : Obj) (f : String)
    (henv : is_jwt_compression_enabled env = true)
    (hsp : splitDots tok.data = [h64, p64, s64])
    (hh : segJson h64 = some H) (hp : segJson p64 = some P) (hs : s64 ≠ [])
    (hf : (static_fields.contains f || session_fields.contains f ||
      dynamic_fields.contains f) = false) :
    (∃ fr, decompose_jwt tok = some fr ∧
      (segJson fr.static.data).map (fun o => aget o f) = some none ∧
      (segJson fr.session.data).map (fun o => aget o f) = some none ∧
      (segJson fr.dynamic.data).map (fun o => aget o f) = some none) ∧
    (∃ rt, reassemble_jwt (add_compressed_jwt env [] tok) = .ok (some rt) ∧
      (tokenPayloadObj rt).map (fun pl => aget pl f) = some none ∧
      (tokenHeaderObj rt).map (fun Ho => aget Ho f) = some none) := by
  have hfm : f ∉ knownPayloadFields := by
    intro hmem
    rw [known_in_buckets f hmem] at hf
    exact Bool.noConfusion hf
  have hfa : f ≠ "alg" := by
    intro he
    subst he
    exact Bool.noConfusion ((by decide : (static_fields.contains "alg" ||
      session_fields.contains "alg" || dynamic_fields.contains "alg") = true) ▸ hf)
  have hft : f ≠ "typ" := by
    intro he
    subst he
    exact Bool.noConfusion ((by decide : (static_fields.contains "typ" ||
      session_fields.contains "typ" || dynamic_fields.contains "typ") = true) ▸ hf)
  have hfss : f ∉ dkeys (static_claims H P) := by
    rw [dkeys_static]
    intro hmem
    simp only [List.mem_cons, List.not_mem_nil, or_false] at hmem
    rcases hmem with rfl | rfl | rfl | rfl | rfl
    · exact hfa rfl
    · exact hft rfl
    · exact hfm (by decide)
    · exact hfm (by decide)
    · exact hfm (by decide)
  have hfse : f ∉ dkeys (session_claims P) := by
    rw [dkeys_session]
    intro hmem
    simp only [List.mem_cons, List.not_mem_nil, or_false] at hmem
    rcases hmem with rfl | rfl | rfl | rfl | rfl <;> exact hfm (by decide)
  have hfdy : f ∉ dkeys (dynamic_claims P) := by
    rw [dkeys_dynamic]
    intro hmem
    simp only [List.mem_cons, List.not_mem_nil, or_false] at hmem
    rcases hmem with rfl | rfl | rfl <;> exact hfm (by decide)
  constructor
  · refine ⟨_, decompose_jwt_eq hsp hh hp, ?_, ?_, ?_⟩
    · rw [segJson_b64JsonDefault _ (static_claims_nodup H P)]
      rw [show Option.map (fun o => aget o f) (some (static_claims H P)) =
        some (aget (static_claims H P) f) from rfl]
      rw [aget_eq_none_of_not_mem hfss]
    · rw [segJson_b64JsonDefault _ (session_claims_nodup P)]
      rw [show Option.map (fun o => aget o f) (some (session_claims P)) =
        some (aget (session_claims P) f) from rfl]
      rw [aget_eq_none_of_not_mem hfse]
    · rw [segJson_b64JsonDefault _ (dynamic_claims_nodup P)]
      rw [show Option.map (fun o => aget o f) (some (dynamic_claims P)) =
        some (aget (dynamic_claims P) f) from rfl]
      rw [aget_eq_none_of_not_mem hfdy]
  · obtain ⟨rt, hrt, hhd, hpl⟩ := pipeline_roundtrip henv hsp hh hp hs
    refine ⟨rt, hrt, ?_, ?_⟩
    · rw [hpl]
      rw [show Option.map (fun pl => aget pl f)
        (some (knownPayloadFields.map (fun k => (k, jget P k)))) =
        some (aget (knownPayloadFields.map (fun k => (k, jget P k))) f) from rfl]
      rw [aget_map_not_mem knownPayloadFields _ hfm]
    · rw [hhd]
      rw [show Option.map (fun Ho => aget Ho f)
        (some [("alg", jget H "alg"), ("typ", jget H "typ")]) =
        some (aget [("alg", jget H "alg"), ("typ", jget H "typ")] f) from rfl]
      rw [aget_cons, if_neg (fun he => hfa he.symm), aget_cons,
        if_neg (fun he => hft he.symm)]
      rfl

/-- C2 (witness): the lossy-field property at `c1tok` with the unknown field
`custom_claim`. -/
theorem c2_witness :
    (∃ fr, decompose_jwt c1tok = some fr ∧
      (segJson fr.static.data).map (fun o => aget o "custom_claim") = some none ∧
      (segJson fr.session.data).map (fun o => aget o "custom_claim") = some none ∧
      (segJson fr.dynamic.data).map (fun o => aget o "custom_claim") = some none) ∧
    (∃ rt, reassemble_jwt (add_compressed_jwt (some "true") [] c1tok) = .ok (some rt) ∧
      (tokenPayloadObj rt).map (fun pl => aget pl "custom_claim") = some none ∧
      (tokenHeaderObj rt).map (fun Ho => aget Ho "custom_claim") = some none) :=
  c2_lossy_field (some "true") c1tok
    (base64url_encode "\x7b\"alg\":\"HS256\",\"typ\":\"JWT\"\x7d").data
    (base64url_encode "\x7b\"iss\":\"x\"\x7d").data "sig".data
    [("alg", JsonVal.str "HS256"), ("typ", JsonVal.str "JWT")] [("iss", JsonVal.str "x")]
    "custom_claim" (by decide) (by decide) (by decide) (by decide) (by decide) (by decide)

/-- C3: `decompose_jwt` returns `None` — no partial fragment set — whenever
the dot-split does not give exactly three segments, or it does but the header
or payload segment fails base64url decoding, UTF-8 decoding or JSON parsing. -/
theorem c3_malformed_decompose (jwt : String)
    (h : (splitDots jwt.data).length ≠ 3 ∨
      ∃ h64 p64 s64, splitDots jwt.data = [h64, p64, s64] ∧
        (segJson h64 = none ∨ segJson p64 = none)) :
    decompose_jwt jwt = none := by
  rcases h with h | ⟨h64, p64, s64, hsp, h⟩
  · exact decompose_not_three jwt h
  · exact decompose_parse_fail jwt h64 p64 s64 hsp h

/-- C3 (witness): the two spec examples — four segments and one segment —
plus a three-segment token whose payload is not valid base64url JSON. -/
theorem c3_witness :
    decompose_jwt "not.a.jwt.extra" = none ∧ decompose_jwt "abc" = none ∧
    decompose_jwt "eyJhbGciOm51bGx9.???.sig" = none :=
  ⟨c3_malformed_decompose _ (Or.inl (by decide)),
   c3_malformed_decompose _ (Or.inl (by decide)),
   c3_malformed_decompose _ (Or.inr ⟨"eyJhbGciOm51bGx9".data, "???".data, "sig".data,
     by decide, Or.inr (by decide)⟩)⟩

/-- C4 (counterexample): a metadata entry whose value is the byte `0xFF`
(not valid UTF-8) makes `reassemble_jwt` raise `UnicodeDecodeError` across
its public boundary instead of returning a null result: the conversion loop
runs outside the `try` block. -/
theorem c4_counterexample :
    reassemble_jwt [("k", MetaVal.bytes [255])] = .error "UnicodeDecodeError" := by rfl

/-- C4 (amended): `reassemble_jwt` never lets an exception escape **when every
bytes-valued metadata entry is valid UTF-8**: every run ends in an `ok`
result (the token, or `none` for all decode/parse failures).  A non-UTF-8
bytes value, however, escapes as `UnicodeDecodeError` (see the
counterexample). -/
theorem c4_no_escape (md : List (String × MetaVal))
    (h : ∀ p ∈ md, ∀ bs, p.2 = MetaVal.bytes bs → (utf8Decode bs).isSome) :
    ∃ r, reassemble_jwt md = .ok r := by
  obtain ⟨l, hl⟩ := convertMeta_isSome md h
  unfold reassemble_jwt
  rw [hl]
  dsimp only
  split
  · exact ⟨_, rfl⟩
  · exact ⟨_, rfl⟩

/-- C4 (witness): a text-only metadata list reassembles without an escaping
exception. -/
theorem c4_witness : ∃ r, reassemble_jwt [("a", MetaVal.str "x")] = .ok r :=
  c4_no_escape _ (by
    intro p hp bs hbs
    rw [List.mem_singleton] at hp
    subst hp
    exact MetaVal.noConfusion hbs)

theorem fragText_b64JsonCompact (o : Obj) :
    fragText (b64JsonCompact o) = some (dumpsCompactL o) := by
  unfold fragText b64JsonCompact base64url_decode
  rw [show (String.mk (base64url_encodeL (dumpsCompactL o))).data =
    base64url_encodeL (dumpsCompactL o) from rfl]
  unfold base64url_encodeL
  rw [base64url_decode_encBytes _ (utf8Encode_lt_256 _), Option.some_bind, utf8Decode_encode]

/-- C5 (counterexample): the static fragment `decompose_jwt` produces for a
concrete token decodes to JSON text containing a space — `json.dumps` is
called with its default `", "`/`": "` separators, not compact ones. -/
theorem c5_counterexample :
    (decompose_jwt c1tok).bind (fun f => (fragText f.static).map (fun t => t.contains ' ')) =
      some (some true) := by decide

/-- C5 (amended): the two serialization sites differ.  Every successful
decomposition yields three claim fragments whose decoded JSON text contains a
space (default `", "`/`": "` separators — insignificant whitespace);
`reassemble_jwt`'s serialization (`b64JsonCompact`, compact `","`/`":"`
separators) yields text free of whitespace whenever the object's keys and
string values are whitespace-free. -/
theorem c5_separators (jwt : String) (f : Frags)
    (hd : decompose_jwt jwt = some f) :
    (∃ t, fragText f.static = some t ∧ ' ' ∈ t) ∧
    (∃ t, fragText f.session = some t ∧ ' ' ∈ t) ∧
    (∃ t, fragText f.dynamic = some t ∧ ' ' ∈ t) ∧
    ∀ (o : Obj), wsFreeObj o →
      ∃ t, fragText (b64JsonCompact o) = some t ∧ ∀ x ∈ t, ¬ isWsChar x := by
  obtain ⟨h64, p64, s64, H, P, hsp, hh, hp, rfl⟩ := decompose_jwt_inv hd
  refine ⟨⟨_, fragText_b64JsonDefault _, ?_⟩, ⟨_, fragText_b64JsonDefault _, ?_⟩,
    ⟨_, fragText_b64JsonDefault _, ?_⟩, ?_⟩
  · exact space_mem_dumpsDefaultL ("alg", jget H "alg") _
  · exact space_mem_dumpsDefaultL ("sub", jget P "sub") _
  · exact space_mem_dumpsDefaultL ("exp", jget P "exp") _
  · intro o ho
    exact ⟨_, fragText_b64JsonCompact o, dumpsCompactL_not_ws o ho⟩

/-- C5 (witness): the amended property at the concrete token `c1tok`. -/
theorem c5_witness :
    (∃ t, fragText ((decompose_jwt c1tok).getD ⟨"", "", "", ""⟩).static = some t ∧ ' ' ∈ t) ∧
    (∃ t, fragText ((decompose_jwt c1tok).getD ⟨"", "", "", ""⟩).session = some t ∧ ' ' ∈ t) ∧
    (∃ t, fragText ((decompose_jwt c1tok).getD ⟨"", "", "", ""⟩).dynamic = some t ∧ ' ' ∈ t) ∧
    ∀ (o : Obj), wsFreeObj o →
      ∃ t, fragText (b64JsonCompact o) = some t ∧ ∀ x ∈ t, ¬ isWsChar x :=
  c5_separators c1tok ((decompose_jwt c1tok).getD ⟨"", "", "", ""⟩) (by decide)

/-- C6 (counterexample): `$` is outside the base64url alphabet, yet
`base64url_decode "$abcd"` does not fail — CPython's non-strict
`binascii.a2b_base64` silently skips characters outside the alphabet, so
`"$abcd"` decodes like `"abcd"`. -/
theorem c6_counterexample :
    strictB64Val '$' = none ∧ base64url_decode "$abcd" = some [105, 183, 29] ∧
    base64url_decode "abcd" = some [105, 183, 29] := by decide

/-- C6 (amended): on input over the strict base64url alphabet, the source
decoder re-derives the padding and matches the reference decoder byte for
byte for lengths ≡ 0, 2, 3 (mod 4) — where the reference always succeeds —
and fails on length ≡ 1 (mod 4) (corrupt padding); but a character outside
the alphabet is skipped, not rejected (see the counterexample). -/
theorem c6_padding (cs : List Char) (h : strictChars cs) :
    ((cs.length % 4 = 0 ∨ cs.length % 4 = 2 ∨ cs.length % 4 = 3) →
      base64url_decodeL cs = refB64Decode cs ∧ ∃ bs, refB64Decode cs = some bs) ∧
    (cs.length % 4 = 1 → base64url_decodeL cs = none) := by
  refine ⟨fun hm => ⟨(base64url_decodeL_clean cs h).1 hm, ?_⟩,
    (base64url_decodeL_clean cs h).2.2.2⟩
  exact refB64Decode_isSome cs h (by omega)

/-- C6 (witness): the amended property at inputs of length 2 and 1. -/
theorem c6_witness :
    base64url_decodeL "ab".data = refB64Decode "ab".data ∧
    base64url_decodeL "a".data = none :=
  ⟨((c6_padding "ab".data (by unfold strictChars; decide)).1 (by decide)).1,
   (c6_padding "a".data (by unfold strictChars; decide)).2 (by decide)⟩

def c7md : List (String × String) :=
  [("x-jwt-static", ""), ("x-jwt-session", "b"), ("x-jwt-dynamic", "c"),
    ("x-jwt-sig", "d"), ("authorization", "Bearer tok")]

/-- C7 (counterexample): a metadata collection in which all four reserved
fragment keys are present in the last-wins lookup — but `x-jwt-static` maps
to the empty string — does not take the compressed path: reassembly falls
through to the authorization entry.  Presence alone does not select the
compressed path; Python truthiness (present and nonempty) does. -/
theorem c7_counterexample :
    ((aget (toDictS c7md) "x-jwt-static").isSome ∧
      (aget (toDictS c7md) "x-jwt-session").isSome ∧
      (aget (toDictS c7md) "x-jwt-dynamic").isSome ∧
      (aget (toDictS c7md) "x-jwt-sig").isSome) ∧
    reassemble_jwt (strMeta c7md) = .ok (some "tok") :=
  ⟨by decide, by rfl⟩

/-- C7 (amended): path selection in `reassemble_jwt` over text metadata: the
compressed path is taken exactly when all four reserved fragment lookups are
*truthy* (present and nonempty) in the last-occurrence-wins dictionary, and
its result ignores any authorization entry; otherwise no partial merge is
attempted and the result is the authorization `Bearer ` fallback (`none`
when that entry is absent or not Bearer-shaped). -/
theorem c7_path_selection (md : List (String × String)) :
    reassemble_jwt (strMeta md) =
      (if truthy (aget (toDictS md) "x-jwt-static") ∧
          truthy (aget (toDictS md) "x-jwt-session") ∧
          truthy (aget (toDictS md) "x-jwt-dynamic") ∧
          truthy (aget (toDictS md) "x-jwt-sig") then
        .ok (compressedResult ((aget (toDictS md) "x-jwt-static").getD "")
          ((aget (toDictS md) "x-jwt-session").getD "")
          ((aget (toDictS md) "x-jwt-dynamic").getD "")
          ((aget (toDictS md) "x-jwt-sig").getD ""))
      else .ok (bearerFallback (toDictS md))) :=
  reassemble_strMeta md

def c8st : String := base64url_encode "\x7b\"alg\":\"a\",\"typ\":\"b\",\"iss\":\"S\"\x7d"

def c8se : String := base64url_encode "\x7b\"iss\":\"SESS\"\x7d"

def c8dy : String := base64url_encode "\x7b\"exp\":1\x7d"

/-- C8 (counterexample): fragments whose static and session objects both carry
`iss` with different values: the reassembled payload holds the *session*
value — `\x7b**static, **session, **dynamic\x7d` silently overwrites, right
operand winning, with no invariant check. -/
theorem c8_counterexample :
    (segJson c8st.data).map (fun o => aget o "iss") = some (some (JsonVal.str "S")) ∧
    (segJson c8se.data).map (fun o => aget o "iss") = some (some (JsonVal.str "SESS")) ∧
    ((reassemble_jwt (strMeta [("x-jwt-static", c8st), ("x-jwt-session", c8se),
        ("x-jwt-dynamic", c8dy), ("x-jwt-sig", "s")])).toOption.bind
      (fun r => r.bind tokenPayloadObj)).map (fun pl => aget pl "iss") =
      some (some (JsonVal.str "SESS")) :=
  ⟨by decide, by decide, by decide⟩

/-- C8 (amended): on a cross-bucket field collision the merge `reassemble_jwt`
performs silently resolves by precedence — dynamic over session over static
(CPython `\x7b**a, **b, **c\x7d` right-to-left priority) — for every key other
than the popped `alg`/`typ`; no invariant violation is raised. -/
theorem c8_merge_precedence (sc ss dc : Obj) (hsc : nodupKeys sc) (hss : nodupKeys ss)
    (hdc : nodupKeys dc) (k : String) (h1 : k ≠ "alg") (h2 : k ≠ "typ") :
    aget (pyMergePayload sc ss dc) k = (aget dc k).or ((aget ss k).or (aget sc k)) :=
  pyMergePayload_lookup sc ss dc hsc hss hdc k h1 h2

/-- C8 (witness): precedence at a concrete collision — session's `iss` wins
over static's. -/
theorem c8_witness :
    aget (pyMergePayload [("iss", JsonVal.str "S")] [("iss", JsonVal.str "SESS")] []) "iss" =
      (aget ([] : Obj) "iss").or ((aget [("iss", JsonVal.str "SESS")] "iss").or
        (aget [("iss", JsonVal.str "S")] "iss")) :=
  c8_merge_precedence [("iss", JsonVal.str "S")] [("iss", JsonVal.str "SESS")] []
    (by unfold nodupKeys dkeys; decide) (by unfold nodupKeys dkeys; decide)
    (by unfold nodupKeys dkeys; decide) "iss" (by decide) (by decide)

/-- C9: `add_compressed_jwt` only appends — the incoming metadata list is a
prefix of the result — and with the flag off or an empty token it appends
exactly the single authorization `Bearer` entry, never the `x-jwt-*`
entries, whatever the token. -/
theorem c9_attach (env : Option String) (md : List (String × MetaVal)) (jwt : String) :
    (∃ extra, add_compressed_jwt env md jwt = md ++ extra) ∧
    ((jwt = "" ∨ is_jwt_compression_enabled env = false) →
      add_compressed_jwt env md jwt =
        md ++ [("authorization", MetaVal.str ("Bearer " ++ jwt))]) := by
  constructor
  · unfold add_compressed_jwt
    split
    · exact ⟨_, rfl⟩
    · split
      · exact ⟨_, rfl⟩
      · exact ⟨_, rfl⟩
  · intro h
    unfold add_compressed_jwt
    rw [if_pos h]

/-- C9 (witness): with the flag unset (defaults to disabled), attaching a
valid-looking token appends only the bearer entry. -/
theorem c9_witness :
    add_compressed_jwt none [("k", MetaVal.str "v")] "tok" =
      [("k", MetaVal.str "v")] ++ [("authorization", MetaVal.str ("Bearer " ++ "tok"))] :=
  (c9_attach none [("k", MetaVal.str "v")] "tok").2 (Or.inr (by decide))

/-- C10: when all four reserved fragment keys are present but at least one
maps to the empty string, `reassemble_jwt` skips the compressed path and
behaves exactly as the fallback: it returns the authorization bearer result,
and `none` when no authorization entry exists. -/
theorem c10_empty_fragment (md : List (String × String))
    (hall : (aget (toDictS md) "x-jwt-static").isSome ∧
      (aget (toDictS md) "x-jwt-session").isSome ∧
      (aget (toDictS md) "x-jwt-dynamic").isSome ∧
      (aget (toDictS md) "x-jwt-sig").isSome)
    (hempty : aget (toDictS md) "x-jwt-static" = some "" ∨
      aget (toDictS md) "x-jwt-session" = some "" ∨
      aget (toDictS md) "x-jwt-dynamic" = some "" ∨
      aget (toDictS md) "x-jwt-sig" = some "") :
    reassemble_jwt (strMeta md) = .ok (bearerFallback (toDictS md)) ∧
    (aget (toDictS md) "authorization" = none →
      reassemble_jwt (strMeta md) = .ok none) := by
  have hcond : ¬(truthy (aget (toDictS md) "x-jwt-static") = true ∧
      truthy (aget (toDictS md) "x-jwt-session") = true ∧
      truthy (aget (toDictS md) "x-jwt-dynamic") = true ∧
      truthy (aget (toDictS md) "x-jwt-sig") = true) := by
    intro hc
    rcases hempty with h | h | h | h
    · rw [h] at hc
      exact absurd hc.1 (by decide)
    · rw [h] at hc
      exact absurd hc.2.1 (by decide)
    · rw [h] at hc
      exact absurd hc.2.2.1 (by decide)
    · rw [h] at hc
      exact absurd hc.2.2.2 (by decide)
  refine ⟨?_, ?_⟩
  · rw [reassemble_strMeta md, if_neg hcond]
  · intro hauth
    rw [reassemble_strMeta md, if_neg hcond]
    unfold bearerFallback
    rw [hauth]

def c10md : List (String × String) :=
  [("x-jwt-static", "a"), ("x-jwt-session", ""), ("x-jwt-dynamic", "c"), ("x-jwt-sig", "d")]

/-- C10 (witness): four keys present, session fragment empty, no
authorization entry — reassembly yields `none`. -/
theorem c10_witness : reassemble_jwt (strMeta c10md) = .ok none :=
  (c10_empty_fragment c10md ⟨by decide, by decide, by decide, by decide⟩
    (Or.inr (Or.inl (by decide)))).2 (by decide)
